import Mathlib

/-!
# pixz `pread.c`: want-list resolver, block-size planner, reader skip logic
and archive adapter

A shallow embedding of `src/pread.c`.

* C strings (`char *`) are `List Char`: the characters before the terminating
  NUL.  Reading the string at the index equal to its length yields the
  terminator, `'\0'`.
* Linked lists (`wanted_t`, `file_index_t`) are Lean lists; a pointer into a
  linked list is the suffix that starts at it, `NULL` is `[]`.
* `size_t` is a natural number below `SIZE_MOD = 2 ^ 64`; arithmetic on it is
  reduced modulo `SIZE_MOD` explicitly.
* `die(...)` and a dereference of `NULL` end the run: functions that can reach
  them return `Except error_t`.
-/

namespace Pread

/-! ## Machine integers -/

/-- One more than `SIZE_MAX`: `size_t` is an unsigned 64-bit integer. -/
def SIZE_MOD : Nat := 2 ^ 64

/-- Subtraction `a - b` in `size_t`, for `a b < SIZE_MOD`. -/
def size_sub (a b : Nat) : Nat := (a + SIZE_MOD - b) % SIZE_MOD

/-- Addition `a + b` in `size_t`. -/
def size_add (a b : Nat) : Nat := (a + b) % SIZE_MOD

/-! ## Errors -/

/-- The ways a run of the modelled functions ends early. -/
inductive error_t where
  /-- `die("Can't filter non-tarball")` -/
  | cant_filter : error_t
  /-- `die("\"%s\" not found in archive", spec)` -/
  | not_found (spec : List Char) : error_t
  /-- a `NULL` pointer is dereferenced -/
  | null_deref : error_t
  deriving DecidableEq, Repr

deriving instance DecidableEq for Except

/-! ## Data model -/

/-- `struct wanted_t` without its `next` link. -/
structure wanted_t where
  name : List Char
  start : Nat
  end_ : Nat
  size : Nat
  deriving DecidableEq, Repr

/-- Modelled from the spec: `file_index_t` is declared in `pixz.h`, which is
not among the sources.  An entry has a name and an uncompressed start offset;
the index is ordered and ends with an entry that has no name (`name` is
`NULL`, here `none`), whose offset is the end of the last named entry.  The
`next` link is the list structure. -/
structure file_index_t where
  name : Option (List Char)
  offset : Nat
  deriving DecidableEq, Repr

/-- The fields of `lzma_index_iter.block` that `pread.c` reads. -/
structure block_t where
  number_in_file : Nat
  compressed_file_offset : Nat
  total_size : Nat
  uncompressed_file_offset : Nat
  uncompressed_size : Nat
  deriving DecidableEq, Repr

/-- `io_block_t` without the buffers' contents: a span of `output` is given by
its offset and length. -/
structure io_block_t where
  insize : Nat
  outsize : Nat
  uoffset : Nat
  deriving DecidableEq, Repr

/-! ## `spec_match` -/

/-- `spec_match(spec, name)`: the loop walks both strings while `*spec` is not
NUL; it stops with `match = false` when `*name` is NUL or the characters
differ.  After the loop the result is `match && (!*name || *name == '/')`. -/
def spec_match : List Char → List Char → Bool
  | [], [] => true
  | [], c :: _ => c == '/'
  | _ :: _, [] => false
  | s :: spec, n :: name => if s ≠ n then false else spec_match spec name

/-! ## `wanted_files` -/

/-- `*c` for a pointer `c` at index `i` of the string `s`: the terminator at
the end of the string. -/
def char_at (s : List Char) (i : Nat) : Char := s.getD i '\x00'

/-- `while (*c++) ;` started with `c` at index `i`, where the first argument is
the rest of the string from `c` on.  The increment also happens on the
iteration that reads the terminator, so the result is one past it. -/
def forward_to_end : List Char → Nat → Nat
  | [], i => i + 1
  | _ :: rest, i => forward_to_end rest (i + 1)

/-- `while (--c >= *spec && *c == '/') *c = '\0';` where the second argument
is the index of `c` before the decrement.  Writing NUL at index `c` cuts the
string there. -/
def strip_slashes (s : List Char) : Nat → List Char
  | 0 => s
  | c + 1 => if char_at s c = '/' then strip_slashes (s.take c) c else s

/-- The body of the loop "Remove trailing slashes from specs" for one spec. -/
def strip_spec (spec : List Char) : List Char :=
  strip_slashes spec (forward_to_end spec 0)

/-- The inner loop over the specs for one file name, `i` being `spec - specs`:
at the first spec that matches, `match` and `matched[i]` are set and the loop
is left. -/
def match_specs (name : List Char) : List (List Char) → Nat → List Bool → Bool × List Bool
  | [], _, matched => (false, matched)
  | spec :: rest, i, matched =>
    if spec_match spec name then (true, matched.set i true)
    else match_specs name rest (i + 1) matched

/-- The loop "Check each file in order, to see if we want it", started at `f`
(the head of the list).  It returns the wanted ranges appended from `f` on and
the final `matched` array. -/
def wanted_loop (specs : List (List Char)) :
    List file_index_t → List Bool → Except error_t (List wanted_t × List Bool)
  | [], _ => .error .null_deref
  | f :: rest, matched =>
    match f.name with
    | none => .ok ([], matched)
    | some name =>
      let r := match_specs name specs 0 matched
      let isMatch := specs.isEmpty || r.1
      match rest with
      | [] => .error .null_deref
      | g :: _ =>
        match wanted_loop specs rest r.2 with
        | .error e => .error e
        | .ok (ws, m) =>
          if isMatch then
            .ok ({ name := name, start := f.offset, end_ := g.offset,
                   size := size_sub g.offset f.offset } :: ws, m)
          else .ok (ws, m)

/-- The loop "Make sure each spec matched": the first spec whose flag is unset,
if there is one. -/
def first_unmatched : List (List Char) → List Bool → Option (List Char)
  | [], _ => none
  | _ :: _, [] => none
  | spec :: specs, m :: matched =>
    if !m then some spec else first_unmatched specs matched

/-- `wanted_files(count, specs)`: the value of `gWantedFiles` it leaves, or the
error it ends with. -/
def wanted_files (gFileIndexOffset : Nat) (gFileIndex : List file_index_t)
    (specs : List (List Char)) : Except error_t (List wanted_t) :=
  if gFileIndexOffset = 0 then
    if specs.length ≠ 0 then .error .cant_filter else .ok []
  else
    let specs1 := specs.map strip_spec
    match wanted_loop specs1 gFileIndex (List.replicate specs.length false) with
    | .error e => .error e
    | .ok (ws, matched) =>
      match first_unmatched specs1 matched with
      | some spec => .error (.not_found spec)
      | none => .ok ws

/-! ## `set_block_sizes` -/

/-- The test `gFileIndexOffset && off == gFileIndexOffset` that
`set_block_sizes` and `read_thread` make to leave out the file-index block. -/
def is_file_index_block (gFileIndexOffset : Nat) (b : block_t) : Bool :=
  gFileIndexOffset != 0 && b.compressed_file_offset == gFileIndexOffset

/-- `set_block_sizes()`: the loop over the block index, on the pair
`(gBlockInSize, gBlockOutSize)`. -/
def set_block_sizes (gFileIndexOffset : Nat) : List block_t → Nat × Nat → Nat × Nat
  | [], g => g
  | b :: rest, (gBlockInSize, gBlockOutSize) =>
    if is_file_index_block gFileIndexOffset b then
      set_block_sizes gFileIndexOffset rest (gBlockInSize, gBlockOutSize)
    else
      let in_ := b.total_size
      let out := b.uncompressed_size
      let gBlockOutSize1 := if out > gBlockOutSize then out else gBlockOutSize
      let gBlockInSize1 := if in_ > gBlockInSize then in_ else gBlockInSize
      set_block_sizes gFileIndexOffset rest (gBlockInSize1, gBlockOutSize1)

/-! ## `read_thread` -/

/-- `for ( ; w && w->end < uend; w = w->next) ;` -/
def advance_wanted (uend : Nat) : List wanted_t → List wanted_t
  | [] => []
  | w :: rest => if w.end_ < uend then advance_wanted uend rest else w :: rest

/-- `read_thread()`: the loop over the block index with the cursor `w`.  The
result is the list of the blocks that are read and handed to
`pipeline_split`, in order. -/
def read_loop (gFileIndexOffset : Nat) (gWantedFiles : List wanted_t) :
    List block_t → List wanted_t → List block_t
  | [], _ => []
  | b :: rest, w =>
    if is_file_index_block gFileIndexOffset b then
      read_loop gFileIndexOffset gWantedFiles rest w
    else if gWantedFiles ≠ [] then
      let uend := size_add b.uncompressed_file_offset b.uncompressed_size
      match w with
      | [] => read_loop gFileIndexOffset gWantedFiles rest w
      | w0 :: _ =>
        if w0.start ≥ uend then read_loop gFileIndexOffset gWantedFiles rest w
        else b :: read_loop gFileIndexOffset gWantedFiles rest (advance_wanted uend w)
    else b :: read_loop gFileIndexOffset gWantedFiles rest w

/-- `read_thread()` from its start, where `w = gWantedFiles`. -/
def read_thread (gFileIndexOffset : Nat) (gWantedFiles : List wanted_t)
    (gIndex : List block_t) : List block_t :=
  read_loop gFileIndexOffset gWantedFiles gIndex gWantedFiles

/-! ## The pipeline between `read_thread` and the consumer -/

/-- Modelled from the spec: `pipeline_item_t` is declared in `pixz.h`, which is
not among the sources.  An item carries its `data`, an `io_block_t`; `seq` is
its position in the order in which the merge stage delivers the items, which
tells the items apart. -/
structure pipeline_item_t where
  seq : Nat
  data : io_block_t
  deriving DecidableEq, Repr

/-- What `read_thread` and `decode_thread` leave in the `io_block_t` of a block
that is read: `insize` is the block's `total_size` (a short read dies),
`uoffset` its uncompressed offset, and `outsize` the number of bytes the
decoder produced, which for a well-formed block is its uncompressed size. -/
def decode_block (b : block_t) : io_block_t :=
  { insize := b.total_size, outsize := b.uncompressed_size,
    uoffset := b.uncompressed_file_offset }

/-- Modelled from the spec: `pipeline_split` and `pipeline_merged` are not
among the sources.  The merge stage restores the order in which the blocks
were read, so `pipeline_merged()` delivers the decoded blocks in that order,
each once, and `NULL` after the last; the items are numbered from `seq` on. -/
def merged_items : List block_t → Nat → List pipeline_item_t
  | [], _ => []
  | b :: rest, seq => { seq := seq, data := decode_block b } :: merged_items rest (seq + 1)

/-! ## The archive adapter: `tar_next_block` and `tar_read` -/

/-- The globals of the section ARCHIVE, with the part of the environment that
`tar_read` acts on: the items `pipeline_merged()` has yet to deliver, the
items pushed back to `gPipelineStartQ`, and the spans written to `gOutFile`
(item, offset in `output`, length). -/
structure ar_state where
  gArItem : Option pipeline_item_t
  gArLastItem : Option pipeline_item_t
  gArLastOffset : Nat
  gArLastSize : Nat
  gArWanted : List wanted_t
  gArNextItem : Bool
  merged : List pipeline_item_t
  startQ : List pipeline_item_t
  written : List (pipeline_item_t × Nat × Nat)
  deriving DecidableEq, Repr

/-- The state when `main` opens the archive: `gArWanted = gWantedFiles`, the
other globals zero. -/
def ar_init (gWantedFiles : List wanted_t) (merged : List pipeline_item_t) : ar_state :=
  { gArItem := none, gArLastItem := none, gArLastOffset := 0, gArLastSize := 0,
    gArWanted := gWantedFiles, gArNextItem := false,
    merged := merged, startQ := [], written := [] }

/-- The second half of `tar_next_block()`: the held-back item goes to
`gPipelineStartQ` (`queue_push` appends it), the current one is held back, and
the item `pipeline_merged()` returns becomes current: the head of `merged`,
`NULL` when none is left. -/
def tar_advance (s : ar_state) : Bool × ar_state :=
  let startQ1 := match s.gArLastItem with
    | some last => s.startQ ++ [last]
    | none => s.startQ
  let next := s.merged.head?
  (next.isSome,
   { s with startQ := startQ1, gArLastItem := s.gArItem, gArItem := next,
            merged := s.merged.tail, gArNextItem := false })

/-- `tar_next_block()`. -/
def tar_next_block (s : ar_state) : Bool × ar_state :=
  match s.gArItem, s.gArNextItem, s.gArWanted with
  | some item, false, w :: _ =>
    if w.start < size_add item.data.uoffset item.data.outsize then (true, s)
    else tar_advance s
  | _, _, _ => tar_advance s

/-- What `tar_read` hands to the archive reader: the returned `size` (as the
`size_t` it is before the conversion to `ssize_t`), and the item and offset
`off` of `*bufp = ib->output + off`, `none` when `*bufp` is not assigned. -/
structure tar_read_result where
  ret : Nat
  bufp : Option (pipeline_item_t × Nat)
  deriving DecidableEq, Repr

/-- `tar_read()`.  `off` and `size` are `size_t`, so the test `off < 0` is a
comparison of natural numbers. -/
def tar_read (gWantedFiles : List wanted_t) (s : ar_state) :
    Except error_t (tar_read_result × ar_state) :=
  let s1 := match s.gArItem with
    | some item => { s with written := s.written ++ [(item, s.gArLastOffset, s.gArLastSize)] }
    | none => s
  let (more, s2) := tar_next_block s1
  if !more then .ok ({ ret := 0, bufp := none }, s2)
  else
    match s2.gArItem with
    | none => .error .null_deref
    | some item =>
      let ib := item.data
      if gWantedFiles ≠ [] then
        match s2.gArWanted with
        | [] => .error .null_deref
        | w :: next =>
          let off := size_sub w.start ib.uoffset
          let size := w.size
          let size1 := if off < 0 then size_add size off else size
          let off1 := if off < 0 then 0 else off
          if size_add off1 size1 > ib.outsize then
            let size2 := size_sub ib.outsize off1
            .ok ({ ret := size2, bufp := some (item, off1) },
                 { s2 with gArNextItem := true, gArLastOffset := off1, gArLastSize := size2 })
          else
            .ok ({ ret := size1, bufp := some (item, off1) },
                 { s2 with gArWanted := next, gArLastOffset := off1, gArLastSize := size1 })
      else
        .ok ({ ret := ib.outsize, bufp := some (item, 0) },
             { s2 with gArLastOffset := 0, gArLastSize := ib.outsize })

/-- The archive reader's calls of `tar_read`: at most `n` calls, ending at the
first that returns 0 (end of stream).  The result is the list of the spans
returned (item, offset, length) in call order, whether the end of the stream
was reached, and the state after the last call. -/
def tar_read_calls (gWantedFiles : List wanted_t) :
    Nat → ar_state → Except error_t (List (pipeline_item_t × Nat × Nat) × Bool × ar_state)
  | 0, s => .ok ([], false, s)
  | n + 1, s =>
    match tar_read gWantedFiles s with
    | .error e => .error e
    | .ok (r, s1) =>
      match r.bufp with
      | none => .ok ([], true, s1)
      | some (item, off) =>
        if r.ret = 0 then .ok ([], true, s1)
        else
          match tar_read_calls gWantedFiles n s1 with
          | .error e => .error e
          | .ok (spans, eof, s2) => .ok ((item, off, r.ret) :: spans, eof, s2)

/-- The verifying path of `main` after `wanted_files`: `read_thread` and the
decoders fill the pipeline, the archive reader calls `tar_read` up to `n`
times. -/
def extract (gFileIndexOffset : Nat) (gWantedFiles : List wanted_t) (gIndex : List block_t)
    (n : Nat) : Except error_t (List (pipeline_item_t × Nat × Nat) × Bool × ar_state) :=
  tar_read_calls gWantedFiles n
    (ar_init gWantedFiles (merged_items (read_thread gFileIndexOffset gWantedFiles gIndex) 0))

/-! ## Specification-level notions -/

/-- The named entries of the file index, in index order, up to the entry that
terminates it: name, offset, and the offset of the entry that follows. -/
def index_entries : List file_index_t → List (List Char × Nat × Nat)
  | [] => []
  | f :: rest =>
    match f.name, rest with
    | some name, g :: _ => (name, f.offset, g.offset) :: index_entries rest
    | _, _ => []

/-- The offsets of the file index in order, the terminating entry's included. -/
def index_offsets : List file_index_t → List Nat
  | [] => []
  | f :: rest =>
    match f.name with
    | none => [f.offset]
    | some _ => f.offset :: index_offsets rest

/-- The wanted range of an index entry. -/
def range_of (e : List Char × Nat × Nat) : wanted_t :=
  { name := e.1, start := e.2.1, end_ := e.2.2, size := size_sub e.2.2 e.2.1 }

/-- An entry name is selected by a spec list: the list is empty, or one of its
specs matches the name. -/
def selected (specs : List (List Char)) (name : List Char) : Bool :=
  specs.isEmpty || specs.any (fun spec => spec_match spec name)

/-- The array `matched` as the loop over the file index of `wanted_files`
leaves it. -/
def matched_flags (gFileIndex : List file_index_t) (specs : List (List Char)) : List Bool :=
  match wanted_loop (specs.map strip_spec) gFileIndex (List.replicate specs.length false) with
  | .ok (_, m) => m
  | .error _ => []

/-- One turn of the loop over the file index, at a named entry that has a
successor. -/
def wanted_step (specs : List (List Char)) (f g : file_index_t) (name : List Char)
    (r : Except error_t (List wanted_t × List Bool)) :
    Except error_t (List wanted_t × List Bool) :=
  match r with
  | .error e => .error e
  | .ok (ws, m) =>
    if selected specs name then
      .ok ({ name := name, start := f.offset, end_ := g.offset,
             size := size_sub g.offset f.offset } :: ws, m)
    else .ok (ws, m)

/-- The blocks of the block index other than the file-index block. -/
def content_blocks (gFileIndexOffset : Nat) (gIndex : List block_t) : List block_t :=
  gIndex.filter (fun b => !is_file_index_block gFileIndexOffset b)

/-- The block index with the sizes of the file-index block replaced by `t`
(compressed) and `u` (uncompressed). -/
def with_index_block_sizes (gFileIndexOffset : Nat) (t u : Nat) (gIndex : List block_t) :
    List block_t :=
  gIndex.map (fun b =>
    if is_file_index_block gFileIndexOffset b then
      { b with total_size := t, uncompressed_size := u }
    else b)

/-- A returned span (item, offset, length) lies in the decoded payload
`[0, outsize)` of its block. -/
def span_in_payload (sp : pipeline_item_t × Nat × Nat) : Bool :=
  sp.2.1 + sp.2.2 ≤ sp.1.data.outsize

/-- The block `b` shares a byte of the uncompressed stream with the range `w`. -/
def block_meets (b : block_t) (w : wanted_t) : Bool :=
  max w.start b.uncompressed_file_offset <
    min w.end_ (b.uncompressed_file_offset + b.uncompressed_size)

/-- Scenario: a container of two content blocks with the uncompressed ranges
`[0,20)` and `[20,40)`, followed by the file-index block at the compressed
offset 224. -/
def two_blocks : List block_t :=
  [⟨0, 12, 106, 0, 20⟩, ⟨1, 118, 106, 20, 20⟩, ⟨2, 224, 60, 40, 33⟩]

/-- Scenario: the file index a@0, b@10, c@25 with its terminator at 40. -/
def index_b_10_25 : List file_index_t :=
  [⟨some "a".toList, 0⟩, ⟨some "b".toList, 10⟩, ⟨some "c".toList, 25⟩, ⟨none, 40⟩]

/-- Scenario: the file index a@0, b@10, c@20 with its terminator at 40. -/
def index_b_10_20 : List file_index_t :=
  [⟨some "a".toList, 0⟩, ⟨some "b".toList, 10⟩, ⟨some "c".toList, 20⟩, ⟨none, 40⟩]

/-! ## The output writer of `main` -/

/-- The choice of `main` between its two consumers: the archive reader is used
when `verify && gFileIndexOffset`, the output writer otherwise. -/
def writer_path (verify : Bool) (gFileIndexOffset : Nat) : Bool :=
  !(verify && gFileIndexOffset != 0)

/-- An `io_block_t` with the content of its `output` buffer, as the output
writer uses it. -/
structure out_block_t where
  output : List Nat
  outsize : Nat
  uoffset : Nat
  deriving DecidableEq, Repr

/-- What `decode_thread` leaves for a block that was read, the block codec
taken as the function `decode`: the bytes it produces fill the start of
`output`, `outsize` is their number (`stream.next_out - ib->output`), and
`stale b` is what the reused buffer holds behind them. -/
def decode_thread (decode stale : block_t → List Nat) (b : block_t) : out_block_t :=
  { output := decode b ++ stale b, outsize := (decode b).length,
    uoffset := b.uncompressed_file_offset }

/-- The loop of `main` on the path without the archive reader, over the items
`pipeline_merged()` delivers: `fwrite(ib->output, ib->outsize, 1, gOutFile)`
appends the first `outsize` bytes of `output` to the output. -/
def write_loop : List out_block_t → List Nat → List Nat
  | [], gOutFile => gOutFile
  | ib :: rest, gOutFile => write_loop rest (gOutFile ++ ib.output.take ib.outsize)

/-- The bytes `main` writes on the path without the archive reader: the blocks
`read_thread` reads are decoded and delivered in the order in which they were
read. -/
def main_write (gFileIndexOffset : Nat) (gWantedFiles : List wanted_t)
    (gIndex : List block_t) (decode stale : block_t → List Nat) : List Nat :=
  write_loop ((read_thread gFileIndexOffset gWantedFiles gIndex).map
    (decode_thread decode stale)) []

/-- Scenario: a container of two content blocks with the uncompressed ranges
`[0,2)` and `[2,5)`, followed by the file-index block at the compressed
offset 224. -/
def small_blocks : List block_t :=
  [⟨0, 12, 106, 0, 2⟩, ⟨1, 118, 106, 2, 3⟩, ⟨2, 224, 60, 5, 33⟩]

/-- Scenario: the five bytes of the uncompressed stream of `small_blocks`. -/
def small_stream : List Nat := [71, 72, 73, 74, 75]

/-- Scenario: the slice of `small_stream` that a block covers. -/
def small_slice (b : block_t) : List Nat :=
  (small_stream.drop b.uncompressed_file_offset).take b.uncompressed_size

/-- Scenario: a codec for `small_blocks`, by the number of the block. -/
def small_decode (b : block_t) : List Nat :=
  if b.number_in_file = 0 then [71, 72] else if b.number_in_file = 1 then [73, 74, 75] else [0]

/-! ## The reader's cursor -/

/-- The value of the cursor `w` of `read_thread` after each turn of its loop,
in order. -/
def read_cursors (gFileIndexOffset : Nat) (gWantedFiles : List wanted_t) :
    List block_t → List wanted_t → List (List wanted_t)
  | [], _ => []
  | b :: rest, w =>
    if is_file_index_block gFileIndexOffset b then
      w :: read_cursors gFileIndexOffset gWantedFiles rest w
    else if gWantedFiles ≠ [] then
      let uend := size_add b.uncompressed_file_offset b.uncompressed_size
      match w with
      | [] => w :: read_cursors gFileIndexOffset gWantedFiles rest w
      | w0 :: _ =>
        if w0.start ≥ uend then w :: read_cursors gFileIndexOffset gWantedFiles rest w
        else advance_wanted uend w ::
          read_cursors gFileIndexOffset gWantedFiles rest (advance_wanted uend w)
    else w :: read_cursors gFileIndexOffset gWantedFiles rest w

/-! ## The parts of `tar_read`, and sequences of calls -/

/-- The first statement of `tar_read`: if an item is current, the span recorded
in `gArLastOffset` and `gArLastSize` is written to `gOutFile`. -/
def tar_flush (s : ar_state) : ar_state :=
  match s.gArItem with
  | some item => { s with written := s.written ++ [(item, s.gArLastOffset, s.gArLastSize)] }
  | none => s

/-- The rest of `tar_read` after the call of `tar_next_block`, which returned
`more` and left the state `s2`. -/
def tar_trim (gWantedFiles : List wanted_t) (more : Bool) (s2 : ar_state) :
    Except error_t (tar_read_result × ar_state) :=
  if !more then .ok ({ ret := 0, bufp := none }, s2)
  else
    match s2.gArItem with
    | none => .error .null_deref
    | some item =>
      let ib := item.data
      if gWantedFiles ≠ [] then
        match s2.gArWanted with
        | [] => .error .null_deref
        | w :: next =>
          let off := size_sub w.start ib.uoffset
          let size := w.size
          let size1 := if off < 0 then size_add size off else size
          let off1 := if off < 0 then 0 else off
          if size_add off1 size1 > ib.outsize then
            let size2 := size_sub ib.outsize off1
            .ok ({ ret := size2, bufp := some (item, off1) },
                 { s2 with gArNextItem := true, gArLastOffset := off1, gArLastSize := size2 })
          else
            .ok ({ ret := size1, bufp := some (item, off1) },
                 { s2 with gArWanted := next, gArLastOffset := off1, gArLastSize := size1 })
      else
        .ok ({ ret := ib.outsize, bufp := some (item, 0) },
             { s2 with gArLastOffset := 0, gArLastSize := ib.outsize })

/-- The span a call of `tar_read` returned (item, offset, length), `none` for
a call that returned 0 without assigning `*bufp`. -/
def returned_span (r : tar_read_result) : Option (pipeline_item_t × Nat × Nat) :=
  r.bufp.map (fun p => (p.1, p.2, r.ret))

/-- The span the next call of `tar_read` will write: the one recorded in
`gArLastOffset` and `gArLastSize`, of the current item, if there is one. -/
def pending_span (s : ar_state) : Option (pipeline_item_t × Nat × Nat) :=
  s.gArItem.map (fun item => (item, s.gArLastOffset, s.gArLastSize))

/-- A sequence of `n` calls of `tar_read`, whatever they return: the span each
call returned, in call order, and the state after the last call. -/
def tar_read_n (gWantedFiles : List wanted_t) :
    Nat → ar_state → Except error_t (List (Option (pipeline_item_t × Nat × Nat)) × ar_state)
  | 0, s => .ok ([], s)
  | n + 1, s =>
    match tar_read gWantedFiles s with
    | .error e => .error e
    | .ok (r, s1) =>
      match tar_read_n gWantedFiles n s1 with
      | .error e => .error e
      | .ok (rs, s2) => .ok (returned_span r :: rs, s2)

/-- The items the adapter holds: the one held back and the current one. -/
def held_items (s : ar_state) : List pipeline_item_t :=
  s.gArLastItem.toList ++ s.gArItem.toList

/-- The items in the order of their way through the adapter: those returned to
`gPipelineStartQ`, those held, those `pipeline_merged()` has yet to deliver. -/
def pool_order (s : ar_state) : List pipeline_item_t :=
  s.startQ ++ held_items s ++ s.merged

/-- Every byte of the uncompressed range of the block `b` lies in some range
of the wanted list. -/
def fully_wanted (gWantedFiles : List wanted_t) (b : block_t) : Bool :=
  (List.range' b.uncompressed_file_offset b.uncompressed_size).all (fun pos =>
    gWantedFiles.any (fun w => decide (w.start ≤ pos ∧ pos < w.end_)))

/-! ## Ranges inside blocks -/

/-- The range `w` lies inside the block `b` and ends before the block's end. -/
def range_inside (w : wanted_t) (b : block_t) : Bool :=
  decide (b.uncompressed_file_offset ≤ w.start ∧
    w.end_ < b.uncompressed_file_offset + b.uncompressed_size)

/-- The block `b` contains at least one range of the wanted list. -/
def holds_range (gWantedFiles : List wanted_t) (b : block_t) : Bool :=
  gWantedFiles.any (fun w => range_inside w b)

/-- The range `w` lies inside the decoded block of the item and ends before
the block's end. -/
def item_holds (item : pipeline_item_t) (w : wanted_t) : Prop :=
  item.data.uoffset ≤ w.start ∧ w.end_ < item.data.uoffset + item.data.outsize

/-- The span `sp` is the one for the range `w`: it is taken from one of the
`items`, whose block contains the range, at the offset `start - uoffset` and
with the length `size`. -/
def span_for (items : List pipeline_item_t) (w : wanted_t)
    (sp : pipeline_item_t × Nat × Nat) : Prop :=
  sp.1 ∈ items ∧ item_holds sp.1 w ∧ sp.2.1 = w.start - sp.1.data.uoffset ∧ sp.2.2 = w.size

/-- The ranges of the wanted list lie, in order, in the current item and the
items yet to be delivered, and each of these items but the current one
contains a range: for each range in turn, either the current item contains it,
or the current item ends at or before its start and the next item to be
delivered contains it. -/
def ranges_laid_out : Option pipeline_item_t → List pipeline_item_t → List wanted_t → Prop
  | _, merged, [] => merged = []
  | cur, merged, w :: rest =>
    (∃ item, cur = some item ∧ item_holds item w ∧ ranges_laid_out cur merged rest) ∨
    ((∀ item, cur = some item → item.data.uoffset + item.data.outsize ≤ w.start) ∧
      ∃ item more, merged = item :: more ∧ item_holds item w ∧
        ranges_laid_out (some item) more rest)

/-- Scenario: three ranges, two inside the block `[0,20)` and one inside the
block `[20,40)` of `two_blocks`. -/
def three_ranges : List wanted_t :=
  [⟨"a".toList, 2, 8, 6⟩, ⟨"b".toList, 10, 15, 5⟩, ⟨"c".toList, 25, 30, 5⟩]

/-! ## Lemmas: strings -/

theorem spec_match_nil (name : List Char) :
    spec_match [] name = true ↔ name = [] ∨ name.head? = some '/' := by
  cases name with
  | nil => simp [spec_match]
  | cons c rest => simp [spec_match]

theorem spec_match_spec (spec name : List Char) :
    spec_match spec name = true ↔
      spec <+: name ∧ (name.length = spec.length ∨ name[spec.length]? = some '/') := by
  induction spec generalizing name with
  | nil =>
    cases name with
    | nil => simp [spec_match]
    | cons c rest => simp [spec_match]
  | cons s spec ih =>
    cases name with
    | nil => simp [spec_match]
    | cons n name =>
      by_cases h : s = n
      · subst h
        simp [spec_match, ih, List.cons_prefix_cons]
      · simp [spec_match, h, List.cons_prefix_cons]

theorem forward_to_end_eq (s : List Char) (i : Nat) :
    forward_to_end s i = i + s.length + 1 := by
  induction s generalizing i with
  | nil => simp [forward_to_end]
  | cons c rest ih => simp [forward_to_end, ih]; omega

theorem char_at_length (s : List Char) : char_at s s.length = '\x00' := by
  simp [char_at, List.getD]

theorem strip_spec_eq (spec : List Char) : strip_spec spec = spec := by
  have h : ('\x00' : Char) ≠ '/' := by decide
  simp [strip_spec, forward_to_end_eq, strip_slashes, char_at_length, h]

theorem map_strip_spec (specs : List (List Char)) : specs.map strip_spec = specs := by
  induction specs with
  | nil => rfl
  | cons s rest ih => simp [strip_spec_eq, ih]

/-! ## Lemmas: the resolver's loops -/

theorem match_specs_fst (name : List Char) (specs : List (List Char)) (i : Nat)
    (matched : List Bool) :
    (match_specs name specs i matched).1 = specs.any (fun spec => spec_match spec name) := by
  induction specs generalizing i with
  | nil => simp [match_specs]
  | cons spec rest ih =>
    by_cases h : spec_match spec name = true
    · simp [match_specs, h]
    · simp [match_specs, h, ih]

theorem match_specs_length (name : List Char) (specs : List (List Char)) (i : Nat)
    (matched : List Bool) :
    (match_specs name specs i matched).2.length = matched.length := by
  induction specs generalizing i with
  | nil => simp [match_specs]
  | cons spec rest ih =>
    by_cases h : spec_match spec name = true
    · simp [match_specs, h]
    · simp [match_specs, h, ih]

/-- A flag that `match_specs` leaves set was set before, or belongs to a spec
that matches the name. -/
theorem match_specs_flag (name : List Char) (specs : List (List Char)) (i : Nat)
    (matched : List Bool) (k : Nat)
    (hk : (match_specs name specs i matched).2[k]? = some true) :
    matched[k]? = some true ∨
      ∃ j, k = i + j ∧ ∃ spec, specs[j]? = some spec ∧ spec_match spec name = true := by
  induction specs generalizing i with
  | nil => left; simpa [match_specs] using hk
  | cons spec rest ih =>
    by_cases h : spec_match spec name = true
    · simp only [match_specs, h, if_true] at hk
      by_cases hik : i = k
      · right
        exact ⟨0, by omega, spec, by simp, h⟩
      · left
        rw [List.getElem?_set_ne hik] at hk
        exact hk
    · simp only [match_specs, h] at hk
      rcases ih (i + 1) hk with h1 | ⟨j, hj, sp, hsp, hm⟩
      · exact Or.inl h1
      · right
        exact ⟨j + 1, by omega, sp, by simpa using hsp, hm⟩

theorem wanted_loop_cons (specs : List (List Char)) (f g : file_index_t)
    (rest : List file_index_t) (name : List Char) (matched : List Bool)
    (hn : f.name = some name) :
    wanted_loop specs (f :: g :: rest) matched =
      wanted_step specs f g name
        (wanted_loop specs (g :: rest) (match_specs name specs 0 matched).2) := by
  rw [wanted_loop]
  simp only [hn, wanted_step, selected, match_specs_fst]

theorem index_entries_cons (f g : file_index_t) (rest : List file_index_t)
    (name : List Char) (hn : f.name = some name) :
    index_entries (f :: g :: rest) = (name, f.offset, g.offset) :: index_entries (g :: rest) := by
  rw [index_entries]
  simp only [hn]

theorem wanted_loop_ok (specs : List (List Char)) (idx : List file_index_t)
    (matched : List Bool) (ws : List wanted_t) (m : List Bool)
    (h : wanted_loop specs idx matched = .ok (ws, m)) :
    ws = ((index_entries idx).filter (fun e => selected specs e.1)).map range_of := by
  induction idx generalizing matched ws m with
  | nil => simp [wanted_loop] at h
  | cons f rest ih =>
    cases hn : f.name with
    | none =>
      simp [wanted_loop, hn] at h
      simp [index_entries, hn, h.1]
    | some name =>
      cases rest with
      | nil => simp [wanted_loop, hn] at h
      | cons g rest1 =>
        rw [wanted_loop_cons specs f g rest1 name matched hn] at h
        cases hr : wanted_loop specs (g :: rest1) (match_specs name specs 0 matched).2 with
        | error e => simp [hr, wanted_step] at h
        | ok p =>
          obtain ⟨ws1, m1⟩ := p
          have hws1 := ih _ _ _ hr
          by_cases hsel : selected specs name = true
          · simp [hr, wanted_step, hsel] at h
            rw [index_entries_cons f g rest1 name hn]
            simp [hsel, range_of, ← hws1, ← h.1]
          · simp [hr, wanted_step, hsel] at h
            rw [index_entries_cons f g rest1 name hn]
            simp [hsel, ← hws1, ← h.1]

theorem wanted_files_ok (gFileIndexOffset : Nat) (gFileIndex : List file_index_t)
    (specs : List (List Char)) (ws : List wanted_t) (hidx : gFileIndexOffset ≠ 0)
    (h : wanted_files gFileIndexOffset gFileIndex specs = .ok ws) :
    ws = ((index_entries gFileIndex).filter (fun e => selected specs e.1)).map range_of := by
  simp only [wanted_files, hidx, if_false, map_strip_spec] at h
  cases hr : wanted_loop specs gFileIndex (List.replicate specs.length false) with
  | error e => simp [hr] at h
  | ok p =>
    obtain ⟨ws1, m1⟩ := p
    simp only [hr] at h
    cases hu : first_unmatched specs m1 with
    | some sp => simp [hu] at h
    | none =>
      simp only [hu] at h
      injection h with h
      subst h
      exact wanted_loop_ok specs gFileIndex _ _ _ hr

theorem size_sub_of_le (a b : Nat) (hle : b ≤ a) (ha : a < SIZE_MOD) :
    size_sub a b = a - b := by
  simp only [size_sub, SIZE_MOD] at *
  omega

/-! ## Lemmas: ascending index -/

theorem index_offsets_head (g : file_index_t) (rest : List file_index_t) :
    ∃ t, index_offsets (g :: rest) = g.offset :: t := by
  cases hn : g.name with
  | none => exact ⟨[], by simp [index_offsets, hn]⟩
  | some name => exact ⟨index_offsets rest, by simp [index_offsets, hn]⟩

theorem index_entries_sorted (idx : List file_index_t)
    (h : (index_offsets idx).Pairwise (· < ·)) :
    (index_entries idx).Pairwise (fun e e1 => e.2.2 ≤ e1.2.1) ∧
      ∀ e ∈ index_entries idx, e.2.1 < e.2.2 ∧ e.2.1 ∈ index_offsets idx := by
  induction idx with
  | nil => simp [index_entries]
  | cons f rest ih =>
    cases hn : f.name with
    | none => simp [index_entries, hn]
    | some name =>
      cases rest with
      | nil => simp [index_entries, hn]
      | cons g rest1 =>
        rw [index_entries_cons f g rest1 name hn]
        have hoff : index_offsets (f :: g :: rest1) = f.offset :: index_offsets (g :: rest1) := by
          rw [index_offsets]
          simp only [hn]
        rw [hoff] at h ⊢
        obtain ⟨t, ht⟩ := index_offsets_head g rest1
        have hp := List.pairwise_cons.mp h
        obtain ⟨ih1, ih2⟩ := ih hp.2
        have hfg : f.offset < g.offset := hp.1 g.offset (by rw [ht]; simp)
        have hge : ∀ x ∈ index_offsets (g :: rest1), g.offset ≤ x := by
          intro x hx
          rw [ht] at hx hp
          rcases List.mem_cons.mp hx with hx1 | hx1
          · omega
          · exact Nat.le_of_lt ((List.pairwise_cons.mp hp.2).1 x hx1)
        refine ⟨List.pairwise_cons.mpr ⟨?_, ih1⟩, ?_⟩
        · intro e he
          exact hge _ (ih2 e he).2
        · intro e he
          rcases List.mem_cons.mp he with he1 | he1
          · subst he1
            exact ⟨hfg, by simp⟩
          · exact ⟨(ih2 e he1).1, List.mem_cons_of_mem _ (ih2 e he1).2⟩

/-! ## Lemmas: the flags -/

/-- On an index that has its terminating entry the loop ends without a fault;
a flag it leaves set was set before or belongs to a spec that matches an
entry. -/
theorem wanted_loop_flags (specs : List (List Char)) (idx : List file_index_t)
    (matched : List Bool) (hterm : idx.any (fun f => f.name.isNone) = true) :
    ∃ ws m, wanted_loop specs idx matched = .ok (ws, m) ∧ m.length = matched.length ∧
      ∀ k : Nat, m[k]? = some true → matched[k]? = some true ∨
        ∃ spec, specs[k]? = some spec ∧ ∃ e ∈ index_entries idx, spec_match spec e.1 = true := by
  induction idx generalizing matched with
  | nil => simp at hterm
  | cons f rest ih =>
    cases hn : f.name with
    | none =>
      refine ⟨[], matched, by simp [wanted_loop, hn], rfl, ?_⟩
      intro k hk
      exact Or.inl hk
    | some name =>
      have hrest : rest.any (fun f => f.name.isNone) = true := by
        simpa [hn] using hterm
      cases rest with
      | nil => simp at hrest
      | cons g rest1 =>
        obtain ⟨ws1, m1, hloop, hlen, hflag⟩ := ih (match_specs name specs 0 matched).2 hrest
        rw [wanted_loop_cons specs f g rest1 name matched hn, hloop,
          index_entries_cons f g rest1 name hn]
        have hkey : ∀ k : Nat, m1[k]? = some true → matched[k]? = some true ∨
            ∃ spec, specs[k]? = some spec ∧
              ∃ e ∈ (name, f.offset, g.offset) :: index_entries (g :: rest1),
                spec_match spec e.1 = true := by
          intro k hk
          rcases hflag k hk with h1 | ⟨spec, hs, e, he, hm⟩
          · rcases match_specs_flag name specs 0 matched k h1 with h2 | ⟨j, hj, spec, hs, hm⟩
            · exact Or.inl h2
            · right
              have hkj : k = j := by omega
              subst hkj
              exact ⟨spec, hs, (name, f.offset, g.offset), by simp, hm⟩
          · right
            exact ⟨spec, hs, e, List.mem_cons_of_mem _ he, hm⟩
        by_cases hsel : selected specs name = true
        · refine ⟨{ name := name, start := f.offset, end_ := g.offset,
                    size := size_sub g.offset f.offset } :: ws1, m1,
            by simp [wanted_step, hsel], ?_, hkey⟩
          rw [hlen, match_specs_length]
        · refine ⟨ws1, m1, by simp [wanted_step, hsel], ?_, hkey⟩
          rw [hlen, match_specs_length]

theorem first_unmatched_spec (specs : List (List Char)) (flags : List Bool)
    (hlen : flags.length = specs.length) (hmiss : ∃ k : Nat, flags[k]? = some false) :
    ∃ (i : Nat) (spec : List Char), specs[i]? = some spec ∧
      first_unmatched specs flags = some spec ∧
      flags[i]? = some false ∧ ∀ j : Nat, j < i → flags[j]? = some true := by
  induction specs generalizing flags with
  | nil =>
    obtain ⟨k, hk⟩ := hmiss
    have : flags = [] := List.length_eq_zero.mp (by simpa using hlen)
    subst this
    simp at hk
  | cons spec rest ih =>
    cases flags with
    | nil => simp at hlen
    | cons m flags1 =>
      cases m with
      | false => exact ⟨0, spec, by simp, by simp [first_unmatched], by simp, by omega⟩
      | true =>
        obtain ⟨k, hk⟩ := hmiss
        have hk1 : ∃ k1 : Nat, flags1[k1]? = some false := by
          cases k with
          | zero => simp at hk
          | succ k1 => exact ⟨k1, by simpa using hk⟩
        obtain ⟨i, sp, h1, h2, h3, h4⟩ := ih flags1 (by simpa using hlen) hk1
        refine ⟨i + 1, sp, by simpa using h1, by simpa [first_unmatched] using h2,
          by simpa using h3, ?_⟩
        intro j hj
        cases j with
        | zero => simp
        | succ j1 => simpa using h4 j1 (by omega)

/-! ## The resolver: theorems -/

/-- C2: `spec_match spec name` holds exactly when `spec` is a character-wise
prefix of `name` and either the prefix is the whole name or the character of
`name` right after it is `'/'`; so `"a/b"` matches `"a/b"` and `"a/b/c"` but
not `"a/bc"`, and `"foo"` does not match `"foobar"`. -/
theorem spec_match_iff_dir_prefix :
    (∀ spec name : List Char, spec_match spec name = true ↔
      spec <+: name ∧ (name.length = spec.length ∨ name[spec.length]? = some '/')) ∧
    spec_match "a/b".toList "a/b".toList = true ∧
    spec_match "a/b".toList "a/b/c".toList = true ∧
    spec_match "a/b".toList "a/bc".toList = false ∧
    spec_match "foo".toList "foobar".toList = false :=
  ⟨spec_match_spec, by decide, by decide, by decide, by decide⟩

/-- C3: with a file index (`gFileIndexOffset ≠ 0`), when `wanted_files`
succeeds the list it builds is the sub-sequence, in index order, of the named
index entries selected by the specs (all of them when there is no spec), each
turned into the range with the entry's name, `start` the entry's offset, `end`
the next entry's offset, and `size` the `size_t` difference `end - start`,
which is the difference of the numbers when `start ≤ end`. -/
theorem wanted_files_ranges (gFileIndexOffset : Nat) (gFileIndex : List file_index_t)
    (specs : List (List Char)) (ws : List wanted_t) (hidx : gFileIndexOffset ≠ 0)
    (h : wanted_files gFileIndexOffset gFileIndex specs = .ok ws) :
    ws = ((index_entries gFileIndex).filter
            (fun e => specs.isEmpty || specs.any (fun spec => spec_match spec e.1))).map
          (fun e => { name := e.1, start := e.2.1, end_ := e.2.2,
                      size := (e.2.2 + SIZE_MOD - e.2.1) % SIZE_MOD }) ∧
    ∀ w ∈ ws, w.start ≤ w.end_ → w.end_ < SIZE_MOD → w.size = w.end_ - w.start := by
  have hws := wanted_files_ok gFileIndexOffset gFileIndex specs ws hidx h
  refine ⟨hws, ?_⟩
  intro w hw hle hlt
  rw [hws] at hw
  obtain ⟨e, _, he⟩ := List.mem_map.mp hw
  subst he
  exact size_sub_of_le _ _ hle hlt

/-- C3, the scenario: for the index a@0, b@10, c@25 with its terminator at 30
and the specs `["b"]` the result is exactly the range `{b, 10, 25, 15}`. -/
theorem wanted_files_ranges_witness :
    wanted_files 1 [⟨some "a".toList, 0⟩, ⟨some "b".toList, 10⟩, ⟨some "c".toList, 25⟩,
        ⟨none, 30⟩] ["b".toList] = .ok [⟨"b".toList, 10, 25, 15⟩] ∧
    ([⟨"b".toList, 10, 25, 15⟩] =
      ((index_entries [⟨some "a".toList, 0⟩, ⟨some "b".toList, 10⟩, ⟨some "c".toList, 25⟩,
          ⟨none, 30⟩]).filter
            (fun e => ["b".toList].isEmpty ||
              ["b".toList].any (fun spec => spec_match spec e.1))).map
          (fun e => ({ name := e.1, start := e.2.1, end_ := e.2.2,
                       size := (e.2.2 + SIZE_MOD - e.2.1) % SIZE_MOD } : wanted_t)) ∧
    ∀ w ∈ [(⟨"b".toList, 10, 25, 15⟩ : wanted_t)],
      w.start ≤ w.end_ → w.end_ < SIZE_MOD → w.size = w.end_ - w.start) :=
  ⟨by decide, wanted_files_ranges 1 _ _ _ (by decide) (by decide)⟩

/-- C4: with a file index that has its terminating entry, if some spec matches
no index entry (after the pass over trailing slashes), `wanted_files` dies
with "not found", naming the spec of the list at the first position, in
argument order, whose `matched` flag is unset. -/
theorem wanted_files_not_found (gFileIndexOffset : Nat) (gFileIndex : List file_index_t)
    (specs : List (List Char)) (hidx : gFileIndexOffset ≠ 0)
    (hterm : gFileIndex.any (fun f => f.name.isNone) = true)
    (hmiss : ∃ spec ∈ specs, ∀ e ∈ index_entries gFileIndex,
      spec_match (strip_spec spec) e.1 = false) :
    ∃ (i : Nat) (spec : List Char), specs[i]? = some spec ∧
      wanted_files gFileIndexOffset gFileIndex specs = .error (.not_found (strip_spec spec)) ∧
      (matched_flags gFileIndex specs)[i]? = some false ∧
      ∀ j : Nat, j < i → (matched_flags gFileIndex specs)[j]? = some true := by
  obtain ⟨ws, m, hloop, hlen, hflag⟩ :=
    wanted_loop_flags specs gFileIndex (List.replicate specs.length false) hterm
  obtain ⟨spec, hspec, hno⟩ := hmiss
  obtain ⟨k, hk, hkspec⟩ := List.getElem_of_mem hspec
  have hmk : m[k]? = some false := by
    have hkm : k < m.length := by rw [hlen]; simpa using hk
    rw [List.getElem?_eq_getElem hkm]
    cases hb : m[k] with
    | false => rfl
    | true =>
      exfalso
      have hb1 : m[k]? = some true := by rw [List.getElem?_eq_getElem hkm, hb]
      rcases hflag k hb1 with h1 | ⟨sp, hsp, e, he, hm⟩
      · simp [List.getElem?_replicate] at h1
      · rw [List.getElem?_eq_getElem hk, hkspec] at hsp
        injection hsp with hsp
        subst hsp
        have := hno e he
        rw [strip_spec_eq] at this
        rw [this] at hm
        exact Bool.noConfusion hm
  obtain ⟨i, sp, h1, h2, h3, h4⟩ :=
    first_unmatched_spec specs m (by rw [hlen]; simp) ⟨k, hmk⟩
  have hflags : matched_flags gFileIndex specs = m := by
    simp only [matched_flags, map_strip_spec, hloop]
  refine ⟨i, sp, h1, ?_, by rw [hflags]; exact h3, by rw [hflags]; exact h4⟩
  simp only [wanted_files, hidx, if_false, map_strip_spec, hloop, h2, strip_spec_eq]

/-- C4, the scenario: the specs `["b", "bee"]` over an index with an entry `b`
and no entry `bee` die naming `"bee"`, although `"b"` matched. -/
theorem wanted_files_not_found_witness :
    wanted_files 1 [⟨some "a".toList, 0⟩, ⟨some "b".toList, 10⟩, ⟨some "c".toList, 25⟩,
        ⟨none, 30⟩] ["b".toList, "bee".toList] = .error (.not_found "bee".toList) ∧
    matched_flags [⟨some "a".toList, 0⟩, ⟨some "b".toList, 10⟩, ⟨some "c".toList, 25⟩,
        ⟨none, 30⟩] ["b".toList, "bee".toList] = [true, false] ∧
    ∃ (i : Nat) (spec : List Char), ["b".toList, "bee".toList][i]? = some spec ∧
      wanted_files 1 [⟨some "a".toList, 0⟩, ⟨some "b".toList, 10⟩, ⟨some "c".toList, 25⟩,
        ⟨none, 30⟩] ["b".toList, "bee".toList] = .error (.not_found (strip_spec spec)) ∧
      (matched_flags [⟨some "a".toList, 0⟩, ⟨some "b".toList, 10⟩, ⟨some "c".toList, 25⟩,
        ⟨none, 30⟩] ["b".toList, "bee".toList])[i]? = some false ∧
      ∀ j : Nat, j < i → (matched_flags [⟨some "a".toList, 0⟩, ⟨some "b".toList, 10⟩,
        ⟨some "c".toList, 25⟩, ⟨none, 30⟩] ["b".toList, "bee".toList])[j]? = some true :=
  ⟨by decide, by decide,
   wanted_files_not_found 1 _ _ (by decide) (by decide) ⟨"bee".toList, by decide, by decide⟩⟩

/-- C5, the failing input: over an index whose only entry is `a/b`, the specs
`["a", "a/b"]` both match the entry, yet `wanted_files` dies with "a/b not
found": the inner loop leaves at the first matching spec, so the flag of
`"a/b"` is never set.  A spec listed twice dies in the same way. -/
theorem wanted_files_shadowed_spec :
    spec_match "a".toList "a/b".toList = true ∧
    spec_match "a/b".toList "a/b".toList = true ∧
    wanted_files 1 [⟨some "a/b".toList, 0⟩, ⟨none, 10⟩] ["a".toList, "a/b".toList] =
      .error (.not_found "a/b".toList) ∧
    matched_flags [⟨some "a/b".toList, 0⟩, ⟨none, 10⟩] ["a".toList, "a/b".toList] =
      [true, false] ∧
    wanted_files 1 [⟨some "a/b".toList, 0⟩, ⟨none, 10⟩] ["a/b".toList, "a/b".toList] =
      .error (.not_found "a/b".toList) := by
  decide

/-- C6, the failing input: the pass "Remove trailing slashes from specs" leaves
every spec as it is, because the backward loop starts at the terminator, which
is not `'/'`.  So the spec `"a/b/"` stays `"a/b/"`, does not match the entry
`a/b`, and `wanted_files` dies, while the spec `"a/b"` selects the entry. -/
theorem strip_spec_keeps_slashes :
    (∀ spec : List Char, strip_spec spec = spec) ∧
    strip_spec "a/b/".toList = "a/b/".toList ∧
    wanted_files 1 [⟨some "a/b".toList, 0⟩, ⟨none, 10⟩] ["a/b/".toList] =
      .error (.not_found "a/b/".toList) ∧
    wanted_files 1 [⟨some "a/b".toList, 0⟩, ⟨none, 10⟩] ["a/b//".toList] =
      .error (.not_found "a/b//".toList) ∧
    wanted_files 1 [⟨some "a/b".toList, 0⟩, ⟨none, 10⟩] ["a/b".toList] =
      .ok [⟨"a/b".toList, 0, 10, 10⟩] :=
  ⟨strip_spec_eq, by decide, by decide, by decide, by decide⟩

/-- C9: for a file index whose offsets, the terminating entry's included, are
strictly increasing, a wanted list that `wanted_files` builds is strictly
ascending and non-overlapping: every range has `start < end`, and of two
consecutive ranges the first ends at or before the start of the second. -/
theorem wanted_files_ascending (gFileIndexOffset : Nat) (gFileIndex : List file_index_t)
    (specs : List (List Char)) (ws : List wanted_t)
    (hasc : (index_offsets gFileIndex).Chain' (fun a b => a < b))
    (h : wanted_files gFileIndexOffset gFileIndex specs = .ok ws) :
    (∀ r ∈ ws, r.start < r.end_) ∧ ws.Chain' (fun r r1 => r.end_ ≤ r1.start) := by
  by_cases hidx : gFileIndexOffset = 0
  · have hws : ws = [] := by
      simp only [wanted_files, hidx, if_true] at h
      by_cases hc : specs.length ≠ 0
      · simp [hc] at h
      · simp only [hc, if_false] at h
        injection h with h
        exact h.symm
    subst hws
    simp
  · have hws := wanted_files_ok gFileIndexOffset gFileIndex specs ws hidx h
    have hpw : (index_offsets gFileIndex).Pairwise (fun a b => a < b) :=
      List.chain'_iff_pairwise.mp hasc
    obtain ⟨h1, h2⟩ := index_entries_sorted gFileIndex hpw
    subst hws
    constructor
    · intro r hr
      obtain ⟨e, he, hre⟩ := List.mem_map.mp hr
      subst hre
      exact (h2 e (List.mem_filter.mp he).1).1
    · apply List.Pairwise.chain'
      rw [List.pairwise_map]
      exact List.Pairwise.filter _ h1

/-- C9, an instance: the index a@0, b@10, c@25 with its terminator at 30 and
the specs `["a", "c"]`. -/
theorem wanted_files_ascending_witness :
    wanted_files 1 [⟨some "a".toList, 0⟩, ⟨some "b".toList, 10⟩, ⟨some "c".toList, 25⟩,
        ⟨none, 30⟩] ["a".toList, "c".toList] =
      .ok [⟨"a".toList, 0, 10, 10⟩, ⟨"c".toList, 25, 30, 5⟩] ∧
    ((∀ r ∈ [(⟨"a".toList, 0, 10, 10⟩ : wanted_t), ⟨"c".toList, 25, 30, 5⟩],
        r.start < r.end_) ∧
      [(⟨"a".toList, 0, 10, 10⟩ : wanted_t), ⟨"c".toList, 25, 30, 5⟩].Chain'
        (fun r r1 => r.end_ ≤ r1.start)) :=
  ⟨by decide,
   wanted_files_ascending 1 [⟨some "a".toList, 0⟩, ⟨some "b".toList, 10⟩,
     ⟨some "c".toList, 25⟩, ⟨none, 30⟩] ["a".toList, "c".toList] _
     (by simp [index_offsets]) (by decide)⟩

/-! ## The block-size planner -/

theorem set_block_sizes_acc (gFileIndexOffset : Nat) (blocks : List block_t) (a b : Nat) :
    set_block_sizes gFileIndexOffset blocks (a, b) =
      (max a (((blocks.filter (fun x => !is_file_index_block gFileIndexOffset x)).map
          (fun x => x.total_size)).foldr max 0),
       max b (((blocks.filter (fun x => !is_file_index_block gFileIndexOffset x)).map
          (fun x => x.uncompressed_size)).foldr max 0)) := by
  induction blocks generalizing a b with
  | nil => simp [set_block_sizes]
  | cons x rest ih =>
    by_cases hx : is_file_index_block gFileIndexOffset x = true
    · simp [set_block_sizes, hx, ih]
    · simp only [set_block_sizes, hx, ih]
      simp only [Bool.not_eq_true] at hx
      simp only [hx, List.filter_cons, Bool.not_false, if_true, List.map_cons, List.foldr_cons]
      have hmax : ∀ o g : Nat, (if o > g then o else g) = max g o := by
        intro o g
        by_cases hog : o > g
        · rw [if_pos hog, Nat.max_eq_right (Nat.le_of_lt hog)]
        · rw [if_neg hog, Nat.max_eq_left (Nat.le_of_not_gt hog)]
      rw [hmax, hmax, Nat.max_assoc, Nat.max_assoc]
      simp

theorem le_foldr_max (l : List Nat) (x : Nat) (hx : x ∈ l) : x ≤ l.foldr max 0 := by
  induction l with
  | nil => simp at hx
  | cons y rest ih =>
    rcases List.mem_cons.mp hx with h | h
    · subst h
      simp
    · have := ih h
      simp only [List.foldr_cons]
      omega

theorem foldr_max_mem (l : List Nat) (hl : l ≠ []) : l.foldr max 0 ∈ l := by
  induction l with
  | nil => exact absurd rfl hl
  | cons y rest ih =>
    simp only [List.foldr_cons]
    by_cases hr : rest = []
    · subst hr
      simp
    · have := ih hr
      rcases Nat.le_total y (rest.foldr max 0) with h | h
      · rw [Nat.max_eq_right h]
        exact List.mem_cons_of_mem _ this
      · rw [Nat.max_eq_left h]
        simp

theorem read_loop_mem (gFileIndexOffset : Nat) (gWantedFiles : List wanted_t)
    (blocks : List block_t) (w : List wanted_t) (b : block_t)
    (hb : b ∈ read_loop gFileIndexOffset gWantedFiles blocks w) :
    b ∈ blocks.filter (fun x => !is_file_index_block gFileIndexOffset x) := by
  induction blocks generalizing w with
  | nil => simp [read_loop] at hb
  | cons x rest ih =>
    by_cases hx : is_file_index_block gFileIndexOffset x = true
    · simp only [read_loop, hx, if_true] at hb
      simpa [hx] using ih w hb
    · simp only [Bool.not_eq_true] at hx
      simp only [List.filter_cons, hx, Bool.not_false, if_true]
      rw [read_loop] at hb
      simp only [hx] at hb
      by_cases hW : gWantedFiles ≠ []
      · simp only [Bool.false_eq_true, if_false] at hb
        rw [if_pos hW] at hb
        cases w with
        | nil => exact List.mem_cons_of_mem _ (ih _ hb)
        | cons w0 wrest =>
          by_cases hc : w0.start ≥ size_add x.uncompressed_file_offset x.uncompressed_size
          · simp only [hc, if_true] at hb
            exact List.mem_cons_of_mem _ (ih _ hb)
          · simp only [hc, if_false] at hb
            rcases List.mem_cons.mp hb with h | h
            · subst h
              simp
            · exact List.mem_cons_of_mem _ (ih _ h)
      · simp only [Bool.false_eq_true, if_false] at hb
        rw [if_neg hW] at hb
        rcases List.mem_cons.mp hb with h | h
        · subst h
          simp
        · exact List.mem_cons_of_mem _ (ih _ h)

theorem set_block_sizes_with_index_block (gFileIndexOffset t u : Nat)
    (gIndex : List block_t) (g : Nat × Nat) :
    set_block_sizes gFileIndexOffset (with_index_block_sizes gFileIndexOffset t u gIndex) g =
      set_block_sizes gFileIndexOffset gIndex g := by
  induction gIndex generalizing g with
  | nil => rfl
  | cons x rest ih =>
    obtain ⟨a, b⟩ := g
    have ih1 := fun g => ih g
    simp only [with_index_block_sizes] at ih1 ⊢
    by_cases hx : is_file_index_block gFileIndexOffset x = true
    · have hx1 : is_file_index_block gFileIndexOffset
          { x with total_size := t, uncompressed_size := u } = true := by
        simpa [is_file_index_block] using hx
      simp only [List.map_cons, hx, if_true, set_block_sizes, hx1, ih1]
    · simp only [List.map_cons, hx, if_false, set_block_sizes, ih1, Bool.false_eq_true]

/-- C10: started from `(0, 0)`, `set_block_sizes` ends with `gBlockInSize` the
maximum `total_size` and `gBlockOutSize` the maximum `uncompressed_size` over
the blocks other than the file-index block: both bound every such block and,
unless there is no such block and the result is `(0, 0)`, both are attained.
Every block `read_thread` reads is within the two bounds, and the sizes of the
file-index block do not change the result. -/
theorem set_block_sizes_maxima (gFileIndexOffset : Nat) (gIndex : List block_t) :
    set_block_sizes gFileIndexOffset gIndex (0, 0) =
      (((content_blocks gFileIndexOffset gIndex).map (fun b => b.total_size)).foldr max 0,
       ((content_blocks gFileIndexOffset gIndex).map
          (fun b => b.uncompressed_size)).foldr max 0) ∧
    (∀ b ∈ content_blocks gFileIndexOffset gIndex,
      b.total_size ≤ (set_block_sizes gFileIndexOffset gIndex (0, 0)).1 ∧
      b.uncompressed_size ≤ (set_block_sizes gFileIndexOffset gIndex (0, 0)).2) ∧
    ((content_blocks gFileIndexOffset gIndex = [] ∧
        set_block_sizes gFileIndexOffset gIndex (0, 0) = (0, 0)) ∨
      ((∃ b ∈ content_blocks gFileIndexOffset gIndex,
          b.total_size = (set_block_sizes gFileIndexOffset gIndex (0, 0)).1) ∧
       (∃ b ∈ content_blocks gFileIndexOffset gIndex,
          b.uncompressed_size = (set_block_sizes gFileIndexOffset gIndex (0, 0)).2))) ∧
    (∀ (gWantedFiles : List wanted_t),
      ∀ b ∈ read_thread gFileIndexOffset gWantedFiles gIndex,
        b.total_size ≤ (set_block_sizes gFileIndexOffset gIndex (0, 0)).1 ∧
        b.uncompressed_size ≤ (set_block_sizes gFileIndexOffset gIndex (0, 0)).2) ∧
    (∀ t u : Nat,
      set_block_sizes gFileIndexOffset
          (with_index_block_sizes gFileIndexOffset t u gIndex) (0, 0) =
        set_block_sizes gFileIndexOffset gIndex (0, 0)) := by
  have heq := set_block_sizes_acc gFileIndexOffset gIndex 0 0
  simp only [Nat.zero_max] at heq
  have hbound : ∀ b ∈ content_blocks gFileIndexOffset gIndex,
      b.total_size ≤ (set_block_sizes gFileIndexOffset gIndex (0, 0)).1 ∧
      b.uncompressed_size ≤ (set_block_sizes gFileIndexOffset gIndex (0, 0)).2 := by
    intro b hb
    rw [heq]
    exact ⟨le_foldr_max _ _ (List.mem_map.mpr ⟨b, hb, rfl⟩),
      le_foldr_max _ _ (List.mem_map.mpr ⟨b, hb, rfl⟩)⟩
  refine ⟨heq, hbound, ?_, ?_, ?_⟩
  · by_cases hc : content_blocks gFileIndexOffset gIndex = []
    · left
      refine ⟨hc, ?_⟩
      rw [heq]
      simp only [content_blocks] at hc
      simp [hc]
    · right
      rw [heq]
      have h1 := foldr_max_mem ((content_blocks gFileIndexOffset gIndex).map
        (fun b => b.total_size)) (by simpa using hc)
      have h2 := foldr_max_mem ((content_blocks gFileIndexOffset gIndex).map
        (fun b => b.uncompressed_size)) (by simpa using hc)
      obtain ⟨b1, hb1, e1⟩ := List.mem_map.mp h1
      obtain ⟨b2, hb2, e2⟩ := List.mem_map.mp h2
      exact ⟨⟨b1, hb1, e1⟩, ⟨b2, hb2, e2⟩⟩
  · intro gWantedFiles b hb
    exact hbound b (read_loop_mem gFileIndexOffset gWantedFiles gIndex gWantedFiles b hb)
  · intro t u
    exact set_block_sizes_with_index_block gFileIndexOffset t u gIndex (0, 0)

/-! ## The reader and the adapter on the scenarios -/

/-- C7, the failing input: the wanted range `[10,25)` over the blocks `[0,20)`
and `[20,40)`.  The first call of `tar_read` returns offset 10, length 10 of
the first block and sets `gArNextItem`.  The second call, on the second block,
computes `off = 10 - 20` in `size_t`, which is `2 ^ 64 - 10`; the test
`off < 0` is false, so the start is not clamped: it returns that offset with
the whole length 15 and advances the cursor, not offset 0 and length 5. -/
theorem tar_read_carry_over_unclamped :
    ∃ s1 s2 : ar_state,
      tar_read [⟨"b".toList, 10, 25, 15⟩]
          (ar_init [⟨"b".toList, 10, 25, 15⟩] [⟨0, ⟨106, 20, 0⟩⟩, ⟨1, ⟨106, 20, 20⟩⟩]) =
        .ok (⟨10, some (⟨0, ⟨106, 20, 0⟩⟩, 10)⟩, s1) ∧
      s1.gArNextItem = true ∧ s1.gArWanted = [⟨"b".toList, 10, 25, 15⟩] ∧
      tar_read [⟨"b".toList, 10, 25, 15⟩] s1 =
        .ok (⟨15, some (⟨1, ⟨106, 20, 20⟩⟩, 2 ^ 64 - 10)⟩, s2) ∧
      s2.gArNextItem = false ∧ s2.gArWanted = [] ∧
      tar_read [⟨"b".toList, 10, 25, 15⟩] s1 ≠
        .ok (⟨5, some (⟨1, ⟨106, 20, 20⟩⟩, 0)⟩,
          { s2 with gArLastOffset := 0, gArLastSize := 5 }) := by
  refine ⟨_, _, rfl, rfl, rfl, rfl, rfl, rfl, ?_⟩
  decide

/-- C8, the failing input: the resolver yields the wanted range `[10,20)`,
which ends on the boundary of the blocks `[0,20)` and `[20,40)`.  The cursor of
`read_thread` stays on the range after the first block, since `w->end < uend`
is `20 < 20`; at the second block `w->start >= uend` is `10 >= 40`, so the
block is read although it shares no byte with a wanted range. -/
theorem read_thread_reads_block_after_boundary :
    wanted_files 224 index_b_10_20 ["b".toList] = .ok [⟨"b".toList, 10, 20, 10⟩] ∧
    read_thread 224 [⟨"b".toList, 10, 20, 10⟩] two_blocks =
      [⟨0, 12, 106, 0, 20⟩, ⟨1, 118, 106, 20, 20⟩] ∧
    is_file_index_block 224 ⟨1, 118, 106, 20, 20⟩ = false ∧
    ∀ w ∈ [(⟨"b".toList, 10, 20, 10⟩ : wanted_t)],
      block_meets ⟨1, 118, 106, 20, 20⟩ w = false := by
  decide

/-- C1, the failing input: the index a@0, b@10, c@25 with the spec `b` over
the blocks `[0,20)` and `[20,40)`.  The resolver yields the range `[10,25)`,
`read_thread` reads both blocks, and the calls of `tar_read` up to the end of
the stream return two spans: offset 10, length 10 of the first block, and
offset `2 ^ 64 - 10`, length 15 of the second.  The second span is not in its
block's payload, and the lengths add up to 25 for 15 wanted bytes. -/
theorem extract_range_across_blocks :
    wanted_files 224 index_b_10_25 ["b".toList] = .ok [⟨"b".toList, 10, 25, 15⟩] ∧
    read_thread 224 [⟨"b".toList, 10, 25, 15⟩] two_blocks =
      [⟨0, 12, 106, 0, 20⟩, ⟨1, 118, 106, 20, 20⟩] ∧
    (extract 224 [⟨"b".toList, 10, 25, 15⟩] two_blocks 8).map (fun r => (r.1, r.2.1)) =
      .ok ([(⟨0, ⟨106, 20, 0⟩⟩, 10, 10), (⟨1, ⟨106, 20, 20⟩⟩, 2 ^ 64 - 10, 15)], true) ∧
    span_in_payload (⟨1, ⟨106, 20, 20⟩⟩, 2 ^ 64 - 10, 15) = false ∧
    ([(10 : Nat), 15].sum = 25 ∧ ([⟨"b".toList, 10, 25, 15⟩].map wanted_t.size).sum = 15) := by
  decide

/-! ## No file index, and the output writer -/

/-- C11: without a file index (`gFileIndexOffset = 0`) `wanted_files` dies with
"Can't filter non-tarball" exactly when at least one spec is given; with no
spec it succeeds and leaves the wanted list empty; in both cases the result
does not depend on the file index. -/
theorem wanted_files_no_index (gFileIndex : List file_index_t) (specs : List (List Char)) :
    (wanted_files 0 gFileIndex specs = .error .cant_filter ↔ specs ≠ []) ∧
    wanted_files 0 gFileIndex [] = .ok [] ∧
    (∀ spec : List Char, wanted_files 0 gFileIndex (spec :: specs) = .error .cant_filter) ∧
    (∀ gFileIndex1 : List file_index_t,
      wanted_files 0 gFileIndex1 specs = wanted_files 0 gFileIndex specs) := by
  refine ⟨?_, by simp [wanted_files], ?_, ?_⟩
  · cases specs with
    | nil => simp [wanted_files]
    | cons spec rest => simp [wanted_files]
  · intro spec
    simp [wanted_files]
  · intro gFileIndex1
    simp [wanted_files]

theorem read_loop_unfiltered (gFileIndexOffset : Nat) (blocks : List block_t)
    (w : List wanted_t) :
    read_loop gFileIndexOffset [] blocks w = content_blocks gFileIndexOffset blocks := by
  induction blocks with
  | nil => simp [read_loop, content_blocks]
  | cons b rest ih =>
    simp only [content_blocks] at ih ⊢
    by_cases hb : is_file_index_block gFileIndexOffset b = true
    · simp [read_loop, hb, ih]
    · simp [read_loop, hb, ih]

theorem write_loop_eq (decode stale : block_t → List Nat) (blocks : List block_t)
    (gOutFile : List Nat) :
    write_loop (blocks.map (decode_thread decode stale)) gOutFile =
      gOutFile ++ blocks.flatMap decode := by
  induction blocks generalizing gOutFile with
  | nil => simp [write_loop]
  | cons b rest ih =>
    simp [write_loop, ih, decode_thread, List.flatMap_cons]

/-- C12: with an empty wanted list `read_thread` hands on every block of the
block index except the file-index block, in the order of the index, and the
output writer writes the concatenation of `decode b` over these blocks in that
order; so if every such block decodes to its original slice, the output is the
concatenation of the original slices. -/
theorem unfiltered_round_trip (gFileIndexOffset : Nat) (gIndex : List block_t)
    (decode stale original : block_t → List Nat)
    (horig : ∀ b ∈ content_blocks gFileIndexOffset gIndex, decode b = original b) :
    read_thread gFileIndexOffset [] gIndex = content_blocks gFileIndexOffset gIndex ∧
    main_write gFileIndexOffset [] gIndex decode stale =
      (content_blocks gFileIndexOffset gIndex).flatMap decode ∧
    main_write gFileIndexOffset [] gIndex decode stale =
      (content_blocks gFileIndexOffset gIndex).flatMap original := by
  have hread : read_thread gFileIndexOffset [] gIndex =
      content_blocks gFileIndexOffset gIndex :=
    read_loop_unfiltered gFileIndexOffset gIndex []
  have hwrite : main_write gFileIndexOffset [] gIndex decode stale =
      (content_blocks gFileIndexOffset gIndex).flatMap decode := by
    simp only [main_write, hread, write_loop_eq, List.nil_append]
  refine ⟨hread, hwrite, ?_⟩
  rw [hwrite]
  generalize content_blocks gFileIndexOffset gIndex = l at horig
  induction l with
  | nil => rfl
  | cons b rest ih =>
    simp only [List.flatMap_cons]
    rw [horig b (List.mem_cons_self _ _), ih (fun x hx => horig x (List.mem_cons_of_mem _ hx))]

/-- C12, an instance: two content blocks `[0,2)` and `[2,5)` of a stream of
five bytes and the file-index block; the output is the stream. -/
theorem unfiltered_round_trip_witness :
    (content_blocks 224 small_blocks).flatMap small_slice = small_stream ∧
    (read_thread 224 [] small_blocks = content_blocks 224 small_blocks ∧
     main_write 224 [] small_blocks small_decode (fun _ => [9, 9]) =
      (content_blocks 224 small_blocks).flatMap small_decode ∧
     main_write 224 [] small_blocks small_decode (fun _ => [9, 9]) =
      (content_blocks 224 small_blocks).flatMap small_slice) :=
  ⟨by decide,
   unfiltered_round_trip 224 small_blocks small_decode (fun _ => [9, 9]) small_slice
     (by decide)⟩

/-! ## The reader keeps every needed block -/

theorem advance_wanted_suffix (uend : Nat) (c : List wanted_t) :
    advance_wanted uend c <:+ c := by
  induction c with
  | nil => simp [advance_wanted]
  | cons y rest ih =>
    by_cases hy : y.end_ < uend
    · simp only [advance_wanted, hy, if_true]
      exact ih.trans (List.suffix_cons _ _)
    · simp only [advance_wanted, hy, if_false]
      exact List.suffix_refl _

theorem advance_wanted_mem (uend : Nat) (c : List wanted_t) (x : wanted_t) (hx : x ∈ c)
    (hend : ¬ x.end_ < uend) : x ∈ advance_wanted uend c := by
  induction c with
  | nil => simp at hx
  | cons y rest ih =>
    by_cases hy : y.end_ < uend
    · simp only [advance_wanted, hy, if_true]
      rcases List.mem_cons.mp hx with h | h
      · subst h
        exact absurd hy hend
      · exact ih h
    · simp only [advance_wanted, hy, if_false]
      exact hx

theorem size_add_of_lt (a b : Nat) (h : a + b < SIZE_MOD) : size_add a b = a + b := by
  simp only [size_add]
  exact Nat.mod_eq_of_lt h

theorem content_blocks_cons_index (gFileIndexOffset : Nat) (b : block_t)
    (rest : List block_t) (hb : is_file_index_block gFileIndexOffset b = true) :
    content_blocks gFileIndexOffset (b :: rest) = content_blocks gFileIndexOffset rest := by
  simp [content_blocks, hb]

theorem content_blocks_cons_content (gFileIndexOffset : Nat) (b : block_t)
    (rest : List block_t) (hb : is_file_index_block gFileIndexOffset b = false) :
    content_blocks gFileIndexOffset (b :: rest) =
      b :: content_blocks gFileIndexOffset rest := by
  simp [content_blocks, hb]

theorem read_loop_index_block (gFileIndexOffset : Nat) (gWantedFiles : List wanted_t)
    (b : block_t) (rest : List block_t) (w : List wanted_t)
    (hb : is_file_index_block gFileIndexOffset b = true) :
    read_loop gFileIndexOffset gWantedFiles (b :: rest) w =
      read_loop gFileIndexOffset gWantedFiles rest w := by
  rw [read_loop]
  simp only [hb, if_true]

theorem read_loop_nil_cursor (gFileIndexOffset : Nat) (gWantedFiles : List wanted_t)
    (b : block_t) (rest : List block_t)
    (hb : is_file_index_block gFileIndexOffset b = false) (hW : gWantedFiles ≠ []) :
    read_loop gFileIndexOffset gWantedFiles (b :: rest) [] =
      read_loop gFileIndexOffset gWantedFiles rest [] := by
  rw [read_loop]
  simp only [hb, Bool.false_eq_true, if_false]
  rw [if_pos hW]

theorem read_loop_skip (gFileIndexOffset : Nat) (gWantedFiles : List wanted_t)
    (b : block_t) (rest : List block_t) (w0 : wanted_t) (wr : List wanted_t)
    (hb : is_file_index_block gFileIndexOffset b = false) (hW : gWantedFiles ≠ [])
    (hskip : w0.start ≥ size_add b.uncompressed_file_offset b.uncompressed_size) :
    read_loop gFileIndexOffset gWantedFiles (b :: rest) (w0 :: wr) =
      read_loop gFileIndexOffset gWantedFiles rest (w0 :: wr) := by
  rw [read_loop]
  simp only [hb, Bool.false_eq_true, if_false]
  rw [if_pos hW]
  simp only [hskip, if_true]

theorem read_loop_read (gFileIndexOffset : Nat) (gWantedFiles : List wanted_t)
    (b : block_t) (rest : List block_t) (w0 : wanted_t) (wr : List wanted_t)
    (hb : is_file_index_block gFileIndexOffset b = false) (hW : gWantedFiles ≠ [])
    (hread : ¬ w0.start ≥ size_add b.uncompressed_file_offset b.uncompressed_size) :
    read_loop gFileIndexOffset gWantedFiles (b :: rest) (w0 :: wr) =
      b :: read_loop gFileIndexOffset gWantedFiles rest
        (advance_wanted (size_add b.uncompressed_file_offset b.uncompressed_size)
          (w0 :: wr)) := by
  rw [read_loop]
  simp only [hb, Bool.false_eq_true, if_false]
  rw [if_pos hW]
  simp only [hread, if_false]

theorem read_loop_inactive (gFileIndexOffset : Nat) (gWantedFiles : List wanted_t)
    (b : block_t) (rest : List block_t) (w : List wanted_t)
    (hb : is_file_index_block gFileIndexOffset b = false) (hW : ¬ gWantedFiles ≠ []) :
    read_loop gFileIndexOffset gWantedFiles (b :: rest) w =
      b :: read_loop gFileIndexOffset gWantedFiles rest w := by
  rw [read_loop]
  simp only [hb, Bool.false_eq_true, if_false]
  rw [if_neg hW]

theorem read_loop_needed (gFileIndexOffset : Nat) (gWantedFiles : List wanted_t)
    (blocks : List block_t) (c : List wanted_t)
    (hfit : ∀ b ∈ content_blocks gFileIndexOffset blocks,
      b.uncompressed_file_offset + b.uncompressed_size < SIZE_MOD)
    (hblocks : (content_blocks gFileIndexOffset blocks).Pairwise
      (fun b b1 => b.uncompressed_file_offset + b.uncompressed_size ≤
        b1.uncompressed_file_offset))
    (hasc : c.Pairwise (fun r r1 => r.start ≤ r1.start))
    (b : block_t) (hb : b ∈ content_blocks gFileIndexOffset blocks)
    (x : wanted_t) (hx : x ∈ c) (hmeet : block_meets b x = true) :
    b ∈ read_loop gFileIndexOffset gWantedFiles blocks c := by
  induction blocks generalizing c with
  | nil => simp [content_blocks] at hb
  | cons h rest ih =>
    by_cases hh : is_file_index_block gFileIndexOffset h = true
    · rw [read_loop_index_block _ _ _ _ _ hh]
      rw [content_blocks_cons_index _ _ _ hh] at hfit hblocks hb
      exact ih c hfit hblocks hasc hb hx
    · simp only [Bool.not_eq_true] at hh
      rw [content_blocks_cons_content _ _ _ hh] at hfit hblocks hb
      have hfit1 : ∀ b ∈ content_blocks gFileIndexOffset rest,
          b.uncompressed_file_offset + b.uncompressed_size < SIZE_MOD :=
        fun y hy => hfit y (List.mem_cons_of_mem _ hy)
      have hp := List.pairwise_cons.mp hblocks
      have huend := size_add_of_lt _ _ (hfit h (List.mem_cons_self _ _))
      simp only [block_meets, decide_eq_true_eq] at hmeet
      by_cases hW : gWantedFiles ≠ []
      · cases c with
        | nil => simp at hx
        | cons c0 cr =>
          have hc0 : c0.start ≤ x.start := by
            rcases List.mem_cons.mp hx with h1 | h1
            · rw [h1]
            · exact (List.pairwise_cons.mp hasc).1 x h1
          by_cases hskip : c0.start ≥
              size_add h.uncompressed_file_offset h.uncompressed_size
          · rw [read_loop_skip _ _ _ _ _ _ hh hW hskip]
            rcases List.mem_cons.mp hb with h1 | h1
            · exfalso
              subst h1
              rw [huend] at hskip
              omega
            · exact ih (c0 :: cr) hfit1 hp.2 hasc h1 hx
          · rw [read_loop_read _ _ _ _ _ _ hh hW hskip]
            rcases List.mem_cons.mp hb with h1 | h1
            · rw [h1]
              exact List.mem_cons_self _ _
            · apply List.mem_cons_of_mem
              have hle := hp.1 b h1
              refine ih _ hfit1 hp.2
                (List.Pairwise.sublist (advance_wanted_suffix _ _).sublist hasc) h1
                (advance_wanted_mem _ _ x hx ?_)
              rw [huend]
              omega
      · rw [read_loop_inactive _ _ _ _ _ hh hW]
        rcases List.mem_cons.mp hb with h1 | h1
        · rw [h1]
          exact List.mem_cons_self _ _
        · exact List.mem_cons_of_mem _ (ih c hfit1 hp.2 hasc h1 hx)

theorem read_cursors_chain (gFileIndexOffset : Nat) (gWantedFiles : List wanted_t)
    (blocks : List block_t) (c : List wanted_t) :
    List.Chain (fun a a1 => a1 <:+ a) c
      (read_cursors gFileIndexOffset gWantedFiles blocks c) := by
  induction blocks generalizing c with
  | nil => simp [read_cursors]
  | cons h rest ih =>
    rw [read_cursors]
    by_cases hh : is_file_index_block gFileIndexOffset h = true
    · simp only [hh, if_true]
      exact List.Chain.cons (List.suffix_refl _) (ih c)
    · simp only [hh, Bool.false_eq_true, if_false]
      by_cases hW : gWantedFiles ≠ []
      · rw [if_pos hW]
        cases c with
        | nil => exact List.Chain.cons (List.suffix_refl _) (ih [])
        | cons c0 cr =>
          by_cases hskip : c0.start ≥
              size_add h.uncompressed_file_offset h.uncompressed_size
          · simp only [hskip, if_true]
            exact List.Chain.cons (List.suffix_refl _) (ih _)
          · simp only [hskip, if_false]
            exact List.Chain.cons (advance_wanted_suffix _ _) (ih _)
      · rw [if_neg hW]
        exact List.Chain.cons (List.suffix_refl _) (ih c)

/-- C13: for a block index whose content blocks are ascending and do not
overlap and a wanted list ascending by start, `read_thread` reads every block,
other than the file-index block, that shares a byte with some wanted range;
and the cursor of its loop only moves forward: after each turn it is a suffix
of what it was before. -/
theorem read_thread_keeps_needed (gFileIndexOffset : Nat) (gWantedFiles : List wanted_t)
    (gIndex : List block_t)
    (hfit : ∀ b ∈ content_blocks gFileIndexOffset gIndex,
      b.uncompressed_file_offset + b.uncompressed_size < SIZE_MOD)
    (hblocks : (content_blocks gFileIndexOffset gIndex).Pairwise
      (fun b b1 => b.uncompressed_file_offset + b.uncompressed_size ≤
        b1.uncompressed_file_offset))
    (hasc : gWantedFiles.Pairwise (fun r r1 => r.start ≤ r1.start)) :
    (∀ b ∈ content_blocks gFileIndexOffset gIndex,
      (∃ w ∈ gWantedFiles, block_meets b w = true) →
        b ∈ read_thread gFileIndexOffset gWantedFiles gIndex) ∧
    List.Chain (fun c c1 => c1 <:+ c) gWantedFiles
      (read_cursors gFileIndexOffset gWantedFiles gIndex gWantedFiles) := by
  refine ⟨?_, read_cursors_chain _ _ _ _⟩
  intro b hb hw
  obtain ⟨w, hw1, hw2⟩ := hw
  exact read_loop_needed gFileIndexOffset gWantedFiles gIndex gWantedFiles hfit hblocks hasc
    b hb w hw1 hw2

/-! ## The adapter: single calls -/

theorem tar_read_eq (gWantedFiles : List wanted_t) (s : ar_state) :
    tar_read gWantedFiles s =
      tar_trim gWantedFiles (tar_next_block (tar_flush s)).1 (tar_next_block (tar_flush s)).2 := by
  rfl

theorem tar_advance_fst (s : ar_state) :
    (tar_advance s).1 = (tar_advance s).2.gArItem.isSome := by
  simp [tar_advance]

theorem tar_next_block_cases (s : ar_state) :
    ((tar_next_block s).1 = true ∧ (tar_next_block s).2 = s ∧ s.gArNextItem = false ∧
      ∃ item w rest, s.gArItem = some item ∧ s.gArWanted = w :: rest ∧
        w.start < size_add item.data.uoffset item.data.outsize) ∨
    tar_next_block s = tar_advance s := by
  cases hi : s.gArItem with
  | none => right; simp [tar_next_block, hi]
  | some item =>
    cases hn : s.gArNextItem with
    | true => right; simp [tar_next_block, hi, hn]
    | false =>
      cases hw : s.gArWanted with
      | nil => right; simp [tar_next_block, hi, hn, hw]
      | cons w rest =>
        by_cases hlt : w.start < size_add item.data.uoffset item.data.outsize
        · left
          simp [tar_next_block, hi, hn, hw, hlt]
        · right
          simp [tar_next_block, hi, hn, hw, hlt]

theorem tar_next_block_flag (s s2 : ar_state) (h : tar_next_block s = (true, s2)) :
    s2.gArNextItem = false := by
  rcases tar_next_block_cases s with ⟨_, h2, h3, _⟩ | h1
  · rw [h] at h2
    simp only at h2
    rw [h2]
    exact h3
  · rw [h1] at h
    have := congrArg Prod.snd h
    simp only [tar_advance] at this
    rw [← this]

theorem tar_trim_in_block (gWantedFiles : List wanted_t) (s2 : ar_state)
    (item : pipeline_item_t) (w : wanted_t) (rest : List wanted_t)
    (hG : gWantedFiles ≠ []) (hitem : s2.gArItem = some item)
    (hw : s2.gArWanted = w :: rest)
    (hlo : item.data.uoffset ≤ w.start)
    (hhi : w.start < item.data.uoffset + item.data.outsize)
    (hle : w.start ≤ w.end_) (hsize : w.size = w.end_ - w.start)
    (hfit1 : item.data.uoffset + item.data.outsize < SIZE_MOD) (hfit2 : w.end_ < SIZE_MOD) :
    (w.end_ ≤ item.data.uoffset + item.data.outsize →
      tar_trim gWantedFiles true s2 =
        .ok (⟨w.size, some (item, w.start - item.data.uoffset)⟩,
          { s2 with gArWanted := rest, gArLastOffset := w.start - item.data.uoffset,
                    gArLastSize := w.size })) ∧
    (item.data.uoffset + item.data.outsize < w.end_ →
      tar_trim gWantedFiles true s2 =
        .ok (⟨item.data.uoffset + item.data.outsize - w.start,
              some (item, w.start - item.data.uoffset)⟩,
          { s2 with gArNextItem := true, gArLastOffset := w.start - item.data.uoffset,
                    gArLastSize := item.data.uoffset + item.data.outsize - w.start })) := by
  have hoff : size_sub w.start item.data.uoffset = w.start - item.data.uoffset :=
    size_sub_of_le _ _ hlo (by omega)
  have hsum : size_add (w.start - item.data.uoffset) w.size = w.end_ - item.data.uoffset := by
    rw [size_add_of_lt _ _ (by omega)]
    omega
  have hno : ¬ (w.start - item.data.uoffset < 0) := Nat.not_lt_zero _
  constructor
  · intro hend
    have hgt : ¬ (w.end_ - item.data.uoffset > item.data.outsize) := by omega
    simp only [tar_trim, Bool.not_true, Bool.false_eq_true, if_false, hitem, hw]
    rw [if_pos hG]
    simp only [hoff, hno, if_false, hsum, hgt]
  · intro hend
    have hgt : w.end_ - item.data.uoffset > item.data.outsize := by omega
    have hsz : size_sub item.data.outsize (w.start - item.data.uoffset) =
        item.data.uoffset + item.data.outsize - w.start := by
      rw [size_sub_of_le _ _ (by omega) (by omega)]
      omega
    simp only [tar_trim, Bool.not_true, Bool.false_eq_true, if_false, hitem, hw]
    rw [if_pos hG]
    simp only [hoff, hno, if_false, hsum, hgt, if_true, hsz]

theorem tar_read_trim_step (gWantedFiles : List wanted_t) (s s2 : ar_state)
    (item : pipeline_item_t) (w : wanted_t) (rest : List wanted_t)
    (hG : gWantedFiles ≠ [])
    (hnext : tar_next_block (tar_flush s) = (true, s2))
    (hitem : s2.gArItem = some item) (hw : s2.gArWanted = w :: rest)
    (hlo : item.data.uoffset ≤ w.start)
    (hhi : w.start < item.data.uoffset + item.data.outsize)
    (hle : w.start ≤ w.end_) (hsize : w.size = w.end_ - w.start)
    (hfit1 : item.data.uoffset + item.data.outsize < SIZE_MOD) (hfit2 : w.end_ < SIZE_MOD) :
    s2.gArNextItem = false ∧
    (w.end_ ≤ item.data.uoffset + item.data.outsize →
      tar_read gWantedFiles s =
        .ok (⟨w.size, some (item, w.start - item.data.uoffset)⟩,
          { s2 with gArWanted := rest, gArLastOffset := w.start - item.data.uoffset,
                    gArLastSize := w.size })) ∧
    (item.data.uoffset + item.data.outsize < w.end_ →
      tar_read gWantedFiles s =
        .ok (⟨item.data.uoffset + item.data.outsize - w.start,
              some (item, w.start - item.data.uoffset)⟩,
          { s2 with gArNextItem := true, gArLastOffset := w.start - item.data.uoffset,
                    gArLastSize := item.data.uoffset + item.data.outsize - w.start })) := by
  refine ⟨tar_next_block_flag _ _ hnext, ?_⟩
  rw [tar_read_eq, hnext]
  exact tar_trim_in_block gWantedFiles s2 item w rest hG hitem hw hlo hhi hle hsize hfit1 hfit2

/-- C14: with filtering enabled, when `tar_next_block` leaves the current
block `[uoffset, uoffset + outsize)` and the current wanted range with
`uoffset ≤ start < uoffset + outsize`, `gArNextItem` is unset and: (i) if
`end ≤ uoffset + outsize`, `tar_read` returns the span at offset
`start - uoffset` of length `size = end - start` and moves the cursor to the
next range, leaving `gArNextItem` unset; (ii) otherwise it returns the span at
offset `start - uoffset` of length `uoffset + outsize - start`, sets
`gArNextItem` and leaves the cursor on the range. -/
theorem tar_read_in_block (gWantedFiles : List wanted_t) (s s2 : ar_state)
    (item : pipeline_item_t) (w : wanted_t) (rest : List wanted_t)
    (hG : gWantedFiles ≠ [])
    (hnext : tar_next_block (tar_flush s) = (true, s2))
    (hitem : s2.gArItem = some item) (hw : s2.gArWanted = w :: rest)
    (hlo : item.data.uoffset ≤ w.start)
    (hhi : w.start < item.data.uoffset + item.data.outsize)
    (hle : w.start ≤ w.end_) (hsize : w.size = w.end_ - w.start)
    (hfit1 : item.data.uoffset + item.data.outsize < SIZE_MOD) (hfit2 : w.end_ < SIZE_MOD) :
    s2.gArNextItem = false ∧
    (w.end_ ≤ item.data.uoffset + item.data.outsize →
      tar_read gWantedFiles s =
        .ok (⟨w.size, some (item, w.start - item.data.uoffset)⟩,
          { s2 with gArWanted := rest, gArLastOffset := w.start - item.data.uoffset,
                    gArLastSize := w.size })) ∧
    (item.data.uoffset + item.data.outsize < w.end_ →
      tar_read gWantedFiles s =
        .ok (⟨item.data.uoffset + item.data.outsize - w.start,
              some (item, w.start - item.data.uoffset)⟩,
          { s2 with gArNextItem := true, gArLastOffset := w.start - item.data.uoffset,
                    gArLastSize := item.data.uoffset + item.data.outsize - w.start })) :=
  tar_read_trim_step gWantedFiles s s2 item w rest hG hnext hitem hw hlo hhi hle hsize
    hfit1 hfit2

/-- C14, two instances on the block `[0,20)`: the range `[10,25)` runs past
the block (ii), the range `[10,15)` ends in it (i). -/
theorem tar_read_in_block_witness :
    tar_read [⟨"b".toList, 10, 25, 15⟩]
        (ar_init [⟨"b".toList, 10, 25, 15⟩] [⟨0, ⟨106, 20, 0⟩⟩, ⟨1, ⟨106, 20, 20⟩⟩]) =
      .ok (⟨10, some (⟨0, ⟨106, 20, 0⟩⟩, 10)⟩,
        { gArItem := some ⟨0, ⟨106, 20, 0⟩⟩, gArLastItem := none, gArLastOffset := 10,
          gArLastSize := 10, gArWanted := [⟨"b".toList, 10, 25, 15⟩], gArNextItem := true,
          merged := [⟨1, ⟨106, 20, 20⟩⟩], startQ := [], written := [] }) ∧
    tar_read [⟨"b".toList, 10, 15, 5⟩]
        (ar_init [⟨"b".toList, 10, 15, 5⟩] [⟨0, ⟨106, 20, 0⟩⟩, ⟨1, ⟨106, 20, 20⟩⟩]) =
      .ok (⟨5, some (⟨0, ⟨106, 20, 0⟩⟩, 10)⟩,
        { gArItem := some ⟨0, ⟨106, 20, 0⟩⟩, gArLastItem := none, gArLastOffset := 10,
          gArLastSize := 5, gArWanted := [], gArNextItem := false,
          merged := [⟨1, ⟨106, 20, 20⟩⟩], startQ := [], written := [] }) :=
  ⟨(tar_read_in_block [⟨"b".toList, 10, 25, 15⟩]
      (ar_init [⟨"b".toList, 10, 25, 15⟩] [⟨0, ⟨106, 20, 0⟩⟩, ⟨1, ⟨106, 20, 20⟩⟩])
      _ ⟨0, ⟨106, 20, 0⟩⟩ ⟨"b".toList, 10, 25, 15⟩ [] (by decide) rfl rfl rfl
      (by decide) (by decide) (by decide) (by decide) (by decide) (by decide)).2.2 (by decide),
   (tar_read_in_block [⟨"b".toList, 10, 15, 5⟩]
      (ar_init [⟨"b".toList, 10, 15, 5⟩] [⟨0, ⟨106, 20, 0⟩⟩, ⟨1, ⟨106, 20, 20⟩⟩])
      _ ⟨0, ⟨106, 20, 0⟩⟩ ⟨"b".toList, 10, 15, 5⟩ [] (by decide) rfl rfl rfl
      (by decide) (by decide) (by decide) (by decide) (by decide) (by decide)).2.1 (by decide)⟩

/-- C13, an instance: the wanted range `[10,25)` over the blocks `[0,20)` and
`[20,40)`; both blocks are read, the cursor stays on the range. -/
theorem read_thread_keeps_needed_witness :
    read_thread 224 [⟨"b".toList, 10, 25, 15⟩] two_blocks =
      [⟨0, 12, 106, 0, 20⟩, ⟨1, 118, 106, 20, 20⟩] ∧
    ((∀ b ∈ content_blocks 224 two_blocks,
      (∃ w ∈ [(⟨"b".toList, 10, 25, 15⟩ : wanted_t)], block_meets b w = true) →
        b ∈ read_thread 224 [⟨"b".toList, 10, 25, 15⟩] two_blocks) ∧
    List.Chain (fun c c1 => c1 <:+ c) [(⟨"b".toList, 10, 25, 15⟩ : wanted_t)]
      (read_cursors 224 [⟨"b".toList, 10, 25, 15⟩] two_blocks
        [⟨"b".toList, 10, 25, 15⟩])) :=
  ⟨by decide,
   read_thread_keeps_needed 224 [⟨"b".toList, 10, 25, 15⟩] two_blocks (by decide)
     (by simp [content_blocks, two_blocks, is_file_index_block]) (by simp)⟩

/-! ## The adapter: what a call changes -/

theorem tar_trim_frame (gWantedFiles : List wanted_t) (more : Bool) (s2 s1 : ar_state)
    (r : tar_read_result) (h : tar_trim gWantedFiles more s2 = .ok (r, s1)) :
    s1.written = s2.written ∧ s1.gArItem = s2.gArItem ∧ s1.gArLastItem = s2.gArLastItem ∧
    s1.startQ = s2.startQ ∧ s1.merged = s2.merged ∧
    ((more = false ∧ returned_span r = none) ∨
     (more = true ∧ ∃ item, s2.gArItem = some item ∧
        returned_span r = some (item, s1.gArLastOffset, s1.gArLastSize))) := by
  cases more with
  | false =>
    simp only [tar_trim, Bool.not_false, if_true] at h
    injection h with h
    injection h with h1 h2
    subst h1 h2
    simp [returned_span]
  | true =>
    simp only [tar_trim, Bool.not_true, Bool.false_eq_true, if_false] at h
    cases hi : s2.gArItem with
    | none => simp [hi] at h
    | some item =>
      simp only [hi] at h
      by_cases hG : gWantedFiles ≠ []
      · rw [if_pos hG] at h
        cases hw : s2.gArWanted with
        | nil => simp [hw] at h
        | cons w next =>
          simp only [hw, Nat.not_lt_zero, if_false] at h
          split at h
          · injection h with h
            injection h with h1 h2
            subst h1 h2
            simp [returned_span, hi]
          · injection h with h
            injection h with h1 h2
            subst h1 h2
            simp [returned_span, hi]
      · rw [if_neg hG] at h
        injection h with h
        injection h with h1 h2
        subst h1 h2
        simp [returned_span, hi]

theorem tar_flush_frame (s : ar_state) :
    (tar_flush s).written = s.written ++ (pending_span s).toList ∧
    (tar_flush s).gArItem = s.gArItem ∧ (tar_flush s).gArLastItem = s.gArLastItem ∧
    (tar_flush s).startQ = s.startQ ∧ (tar_flush s).merged = s.merged := by
  cases hi : s.gArItem with
  | none => simp [tar_flush, pending_span, hi]
  | some item => simp [tar_flush, pending_span, hi]

theorem tar_next_block_frame (s : ar_state) :
    (tar_next_block s).2.written = s.written ∧
    (tar_next_block s).1 = (tar_next_block s).2.gArItem.isSome ∧
    (((tar_next_block s).2.startQ = s.startQ ∧
        (tar_next_block s).2.gArLastItem = s.gArLastItem ∧
        (tar_next_block s).2.gArItem = s.gArItem ∧
        (tar_next_block s).2.merged = s.merged) ∨
     ((tar_next_block s).2.startQ = s.startQ ++ s.gArLastItem.toList ∧
        (tar_next_block s).2.gArLastItem = s.gArItem ∧
        (tar_next_block s).2.gArItem = s.merged.head? ∧
        (tar_next_block s).2.merged = s.merged.tail)) := by
  rcases tar_next_block_cases s with ⟨h1, h2, _, item, _, _, hi, _, _⟩ | h
  · rw [h1, h2]
    simp [hi]
  · rw [h]
    refine ⟨by simp [tar_advance], by simp [tar_advance], Or.inr ?_⟩
    cases hl : s.gArLastItem with
    | none => simp [tar_advance, hl]
    | some last => simp [tar_advance, hl]

/-- What one call of `tar_read` does to the output, the recorded span and the
items. -/
theorem tar_read_step (gWantedFiles : List wanted_t) (s s1 : ar_state) (r : tar_read_result)
    (h : tar_read gWantedFiles s = .ok (r, s1)) :
    s1.written = s.written ++ (pending_span s).toList ∧
    pending_span s1 = returned_span r ∧
    ((s1.startQ = s.startQ ∧ s1.gArLastItem = s.gArLastItem ∧ s1.gArItem = s.gArItem ∧
        s1.merged = s.merged) ∨
     (s1.startQ = s.startQ ++ s.gArLastItem.toList ∧ s1.gArLastItem = s.gArItem ∧
        s1.gArItem = s.merged.head? ∧ s1.merged = s.merged.tail)) := by
  rw [tar_read_eq] at h
  obtain ⟨t1, t2, t3, t4, t5, t6⟩ := tar_trim_frame _ _ _ _ _ h
  obtain ⟨n1, n2, n3⟩ := tar_next_block_frame (tar_flush s)
  obtain ⟨f1, f2, f3, f4, f5⟩ := tar_flush_frame s
  refine ⟨by rw [t1, n1, f1], ?_, ?_⟩
  · rcases t6 with ⟨hm, hr⟩ | ⟨hm, item, hi, hr⟩
    · rw [hr]
      rw [hm] at n2
      have : s1.gArItem = none := by
        rw [t2]
        cases hx : (tar_next_block (tar_flush s)).2.gArItem with
        | none => rfl
        | some y => rw [hx] at n2; simp at n2
      simp [pending_span, this]
    · rw [hr]
      simp [pending_span, t2, hi]
  · rw [t2, t3, t4, t5]
    rw [f2, f3, f4, f5] at n3
    exact n3

theorem pool_order_step (s s1 : ar_state)
    (h : (s1.startQ = s.startQ ∧ s1.gArLastItem = s.gArLastItem ∧ s1.gArItem = s.gArItem ∧
        s1.merged = s.merged) ∨
     (s1.startQ = s.startQ ++ s.gArLastItem.toList ∧ s1.gArLastItem = s.gArItem ∧
        s1.gArItem = s.merged.head? ∧ s1.merged = s.merged.tail)) :
    pool_order s1 = pool_order s := by
  rcases h with ⟨h1, h2, h3, h4⟩ | ⟨h1, h2, h3, h4⟩
  · simp [pool_order, held_items, h1, h2, h3, h4]
  · simp only [pool_order, held_items, h1, h2, h3, h4]
    cases hm : s.merged with
    | nil => simp
    | cons x rest => simp

/-! ## The adapter: sequences of calls -/

theorem reduceOption_cons_toList (x : Option (pipeline_item_t × Nat × Nat))
    (l : List (Option (pipeline_item_t × Nat × Nat))) :
    (x :: l).reduceOption = x.toList ++ l.reduceOption := by
  cases x with
  | none => simp [List.reduceOption_cons_of_none]
  | some a => simp [List.reduceOption_cons_of_some]

theorem tar_read_n_inv (gWantedFiles : List wanted_t) (n : Nat) (s s1 : ar_state)
    (rs : List (Option (pipeline_item_t × Nat × Nat)))
    (h : tar_read_n gWantedFiles n s = .ok (rs, s1)) :
    s1.written ++ (pending_span s1).toList =
      s.written ++ (pending_span s).toList ++ rs.reduceOption ∧
    pool_order s1 = pool_order s ∧ rs.length = n ∧
    (n ≠ 0 → rs.getLast? = some (pending_span s1)) := by
  induction n generalizing s rs with
  | zero =>
    simp only [tar_read_n] at h
    injection h with h
    injection h with h1 h2
    subst h1 h2
    simp
  | succ n ih =>
    rw [tar_read_n] at h
    cases hr : tar_read gWantedFiles s with
    | error e => simp [hr] at h
    | ok p =>
      obtain ⟨r, t⟩ := p
      simp only [hr] at h
      cases hn : tar_read_n gWantedFiles n t with
      | error e => simp [hn] at h
      | ok q =>
        obtain ⟨rs1, t1⟩ := q
        simp only [hn] at h
        injection h with h
        injection h with h1 h2
        subst h1 h2
        obtain ⟨a1, a2, a3⟩ := tar_read_step _ _ _ _ hr
        obtain ⟨b1, b2, b3, b4⟩ := ih t rs1 hn
        refine ⟨?_, ?_, by simp [b3], ?_⟩
        · rw [b1, a1, a2, reduceOption_cons_toList]
          simp [List.append_assoc]
        · rw [b2]
          exact pool_order_step _ _ a3
        · intro _
          cases n with
          | zero =>
            simp only [tar_read_n] at hn
            injection hn with hn
            injection hn with h1 h2
            subst h1 h2
            simp [a2]
          | succ m =>
            rw [List.getLast?_cons, b4 (by omega)]
            rfl

/-- C15: in a sequence of calls of `tar_read` from the start, after the k-th
call the output holds the spans that the calls 1 to k-1 returned, in call order
and nothing else; so the first call writes nothing, and the span a call
returns is recorded, with the item it was taken from still current, for the
next call to write first. -/
theorem tar_read_deferred_flush (gWantedFiles : List wanted_t)
    (items : List pipeline_item_t) (k : Nat) (s : ar_state)
    (rs : List (Option (pipeline_item_t × Nat × Nat)))
    (h : tar_read_n gWantedFiles k (ar_init gWantedFiles items) = .ok (rs, s)) :
    rs.length = k ∧
    s.written = rs.dropLast.reduceOption ∧
    (k ≤ 1 → s.written = []) ∧
    (k ≠ 0 → rs.getLast? = some (pending_span s)) ∧
    (∀ (r1 : tar_read_result) (s1 : ar_state), tar_read gWantedFiles s = .ok (r1, s1) →
      s1.written = rs.reduceOption ∧ pending_span s1 = returned_span r1 ∧
      ∀ item ∈ s.gArItem, item ∈ held_items s1) := by
  obtain ⟨h1, _, h3, h4⟩ := tar_read_n_inv _ _ _ _ _ h
  have hinit : (ar_init gWantedFiles items).written ++
      (pending_span (ar_init gWantedFiles items)).toList = [] := by
    simp [ar_init, pending_span]
  rw [hinit, List.nil_append] at h1
  have hdrop : s.written = rs.dropLast.reduceOption := by
    by_cases hk : k = 0
    · subst hk
      simp only [tar_read_n] at h
      injection h with h
      injection h with e1 e2
      subst e1 e2
      simp [ar_init]
    · have hl := List.dropLast_append_getLast? _ (h4 hk)
      rw [← hl, List.reduceOption_append] at h1
      have : [pending_span s].reduceOption = (pending_span s).toList := by
        rw [reduceOption_cons_toList]
        simp
      rw [this] at h1
      exact List.append_cancel_right h1
  refine ⟨h3, hdrop, ?_, h4, ?_⟩
  · intro hk
    rw [hdrop]
    have : rs.dropLast = [] := by
      apply List.eq_nil_of_length_eq_zero
      rw [List.length_dropLast, h3]
      omega
    rw [this]
    rfl
  · intro r1 s1 hr
    obtain ⟨a1, a2, a3⟩ := tar_read_step _ _ _ _ hr
    refine ⟨by rw [a1, h1], a2, ?_⟩
    intro item hitem
    rcases a3 with ⟨_, _, e3, _⟩ | ⟨_, e2, _, _⟩
    · simp only [held_items, e3]
      exact List.mem_append_right _ (by simpa using hitem)
    · simp only [held_items, e2]
      exact List.mem_append_left _ (by simpa using hitem)

/-- C15, an instance: three calls for the wanted range `[10,25)` over two
blocks; after the third call, which returns the end of the stream, the output
holds the spans of the first two calls. -/
theorem tar_read_deferred_flush_witness :
    ∃ (rs : List (Option (pipeline_item_t × Nat × Nat))) (s : ar_state),
      tar_read_n [⟨"b".toList, 10, 25, 15⟩] 3
          (ar_init [⟨"b".toList, 10, 25, 15⟩] [⟨0, ⟨106, 20, 0⟩⟩, ⟨1, ⟨106, 20, 20⟩⟩]) =
        .ok (rs, s) ∧
      rs = [some (⟨0, ⟨106, 20, 0⟩⟩, 10, 10), some (⟨1, ⟨106, 20, 20⟩⟩, 2 ^ 64 - 10, 15),
        none] ∧
      s.written = [(⟨0, ⟨106, 20, 0⟩⟩, 10, 10), (⟨1, ⟨106, 20, 20⟩⟩, 2 ^ 64 - 10, 15)] ∧
      s.written = rs.dropLast.reduceOption := by
  refine ⟨_, _, rfl, rfl, rfl, ?_⟩
  exact (tar_read_deferred_flush [⟨"b".toList, 10, 25, 15⟩]
    [⟨0, ⟨106, 20, 0⟩⟩, ⟨1, ⟨106, 20, 20⟩⟩] 3 _ _ rfl).2.1

/-- C17: in a sequence of calls of `tar_read` from the start, over distinct
merged items: the items returned to the pool, the held ones and the ones not
yet pulled are, in this order, the merged items, so no item is returned twice
and no held item is in the pool; the adapter holds at most two items; every
span returned from an item that is in the pool has been written; and a call
returns to the pool nothing, or, when `tar_next_block` advances, exactly the
item held back, the current one becoming the one held back. -/
theorem tar_read_no_early_reuse (gWantedFiles : List wanted_t)
    (items : List pipeline_item_t) (k : Nat) (s : ar_state)
    (rs : List (Option (pipeline_item_t × Nat × Nat)))
    (hnodup : items.Nodup)
    (h : tar_read_n gWantedFiles k (ar_init gWantedFiles items) = .ok (rs, s)) :
    s.startQ ++ held_items s ++ s.merged = items ∧
    (s.startQ ++ held_items s).Nodup ∧
    (held_items s).length ≤ 2 ∧
    (∀ sp ∈ rs.reduceOption, sp.1 ∈ s.startQ → sp ∈ s.written) ∧
    (∀ (r1 : tar_read_result) (s1 : ar_state), tar_read gWantedFiles s = .ok (r1, s1) →
      (s1.startQ = s.startQ ∧ s1.gArLastItem = s.gArLastItem ∧ s1.gArItem = s.gArItem ∧
        s1.merged = s.merged) ∨
      (s1.startQ = s.startQ ++ s.gArLastItem.toList ∧ s1.gArLastItem = s.gArItem ∧
        s1.gArItem = s.merged.head? ∧ s1.merged = s.merged.tail)) := by
  obtain ⟨h1, h2, _, _⟩ := tar_read_n_inv _ _ _ _ _ h
  have hinit : (ar_init gWantedFiles items).written ++
      (pending_span (ar_init gWantedFiles items)).toList = [] := by
    simp [ar_init, pending_span]
  rw [hinit, List.nil_append] at h1
  have hpool : s.startQ ++ held_items s ++ s.merged = items := by
    have : pool_order (ar_init gWantedFiles items) = items := by
      simp [pool_order, held_items, ar_init]
    rw [← this, ← h2]
    rfl
  have hnd : (s.startQ ++ held_items s).Nodup := by
    rw [← hpool] at hnodup
    exact (List.nodup_append.mp hnodup).1
  refine ⟨hpool, hnd, ?_, ?_, ?_⟩
  · simp only [held_items, List.length_append]
    have e1 : s.gArLastItem.toList.length ≤ 1 := by cases s.gArLastItem <;> simp
    have e2 : s.gArItem.toList.length ≤ 1 := by cases s.gArItem <;> simp
    omega
  · intro sp hsp hq
    rw [← h1] at hsp
    rcases List.mem_append.mp hsp with hw | hp
    · exact hw
    · exfalso
      cases hi : s.gArItem with
      | none => simp [pending_span, hi] at hp
      | some item =>
        simp only [pending_span, hi, Option.map_some', Option.toList_some,
          List.mem_singleton] at hp
        have hheld : sp.1 ∈ held_items s := by
          simp [held_items, hi, hp]
        exact (List.nodup_append.mp hnd).2.2 hq hheld
  · intro r1 s1 hr
    exact (tar_read_step _ _ _ _ hr).2.2

/-- C17, an instance: four calls for the wanted range `[10,25)` over two
blocks; both items are then back in the pool, in the order in which they were
pulled. -/
theorem tar_read_no_early_reuse_witness :
    ∃ (rs : List (Option (pipeline_item_t × Nat × Nat))) (s : ar_state),
      tar_read_n [⟨"b".toList, 10, 25, 15⟩] 4
          (ar_init [⟨"b".toList, 10, 25, 15⟩] [⟨0, ⟨106, 20, 0⟩⟩, ⟨1, ⟨106, 20, 20⟩⟩]) =
        .ok (rs, s) ∧
      s.startQ = [⟨0, ⟨106, 20, 0⟩⟩, ⟨1, ⟨106, 20, 20⟩⟩] ∧ held_items s = [] ∧
      s.startQ ++ held_items s ++ s.merged = [⟨0, ⟨106, 20, 0⟩⟩, ⟨1, ⟨106, 20, 20⟩⟩] ∧
      (s.startQ ++ held_items s).Nodup ∧
      (∀ sp ∈ rs.reduceOption, sp.1 ∈ s.startQ → sp ∈ s.written) := by
  refine ⟨_, _, rfl, rfl, rfl, ?_⟩
  have h := tar_read_no_early_reuse [⟨"b".toList, 10, 25, 15⟩]
    [⟨0, ⟨106, 20, 0⟩⟩, ⟨1, ⟨106, 20, 20⟩⟩] 4 _ _ (by decide) rfl
  exact ⟨h.1, h.2.1, h.2.2.2.1⟩

/-- C18, the failing input: the resolver yields the wanted range `[10,20)`,
which ends on the boundary of the blocks `[0,20)` and `[20,40)`; `read_thread`
reads both blocks.  The first call of `tar_read` returns offset 10, length 10
of the first block and moves the cursor to `NULL`.  In the second call
`tar_next_block` pulls the second block and reports it available while the
cursor is `NULL`, and `tar_read` dereferences the cursor. -/
theorem tar_read_null_cursor_after_boundary :
    wanted_files 224 index_b_10_20 ["b".toList] = .ok [⟨"b".toList, 10, 20, 10⟩] ∧
    read_thread 224 [⟨"b".toList, 10, 20, 10⟩] two_blocks =
      [⟨0, 12, 106, 0, 20⟩, ⟨1, 118, 106, 20, 20⟩] ∧
    (∃ s1 s2 : ar_state,
      tar_read [⟨"b".toList, 10, 20, 10⟩]
          (ar_init [⟨"b".toList, 10, 20, 10⟩]
            (merged_items (read_thread 224 [⟨"b".toList, 10, 20, 10⟩] two_blocks) 0)) =
        .ok (⟨10, some (⟨0, ⟨106, 20, 0⟩⟩, 10)⟩, s1) ∧
      s1.gArWanted = [] ∧
      tar_next_block (tar_flush s1) = (true, s2) ∧
      s2.gArItem = some ⟨1, ⟨106, 20, 20⟩⟩ ∧ s2.gArWanted = [] ∧
      tar_read [⟨"b".toList, 10, 20, 10⟩] s1 = .error .null_deref) ∧
    extract 224 [⟨"b".toList, 10, 20, 10⟩] two_blocks 8 = .error .null_deref := by
  refine ⟨by decide, by decide, ⟨_, _, rfl, rfl, rfl, rfl, rfl, rfl⟩, by decide⟩

/-! ## The output writer with filtering active -/

theorem read_loop_passes_test (gFileIndexOffset : Nat) (gWantedFiles : List wanted_t)
    (blocks : List block_t) (c : List wanted_t) (hW : gWantedFiles ≠ [])
    (hc : ∀ w ∈ c, w ∈ gWantedFiles) (b : block_t)
    (hb : b ∈ read_loop gFileIndexOffset gWantedFiles blocks c) :
    ∃ w ∈ gWantedFiles,
      w.start < size_add b.uncompressed_file_offset b.uncompressed_size := by
  induction blocks generalizing c with
  | nil => simp [read_loop] at hb
  | cons h rest ih =>
    by_cases hh : is_file_index_block gFileIndexOffset h = true
    · rw [read_loop_index_block _ _ _ _ _ hh] at hb
      exact ih c hc hb
    · simp only [Bool.not_eq_true] at hh
      cases c with
      | nil =>
        rw [read_loop_nil_cursor _ _ _ _ hh hW] at hb
        exact ih [] hc hb
      | cons c0 cr =>
        by_cases hskip : c0.start ≥
            size_add h.uncompressed_file_offset h.uncompressed_size
        · rw [read_loop_skip _ _ _ _ _ _ hh hW hskip] at hb
          exact ih _ hc hb
        · rw [read_loop_read _ _ _ _ _ _ hh hW hskip] at hb
          rcases List.mem_cons.mp hb with h1 | h1
          · subst h1
            exact ⟨c0, hc c0 (List.mem_cons_self _ _), by omega⟩
          · refine ih _ ?_ h1
            intro w hw
            exact hc w ((advance_wanted_suffix _ _).subset hw)

/-- C16, the claim refuted: with verification disabled and a file index the
output writer is used; for the spec `b` the wanted list is the range `[10,25)`,
filtering is active, and `read_thread` reads the blocks `[0,20)` and `[20,40)`,
which the writer writes whole; the first block is not fully wanted, its byte 0
lies in no wanted range. -/
theorem writer_writes_unwanted_bytes :
    writer_path false 224 = true ∧
    wanted_files 224 index_b_10_25 ["b".toList] = .ok [⟨"b".toList, 10, 25, 15⟩] ∧
    read_thread 224 [⟨"b".toList, 10, 25, 15⟩] two_blocks =
      [⟨0, 12, 106, 0, 20⟩, ⟨1, 118, 106, 20, 20⟩] ∧
    fully_wanted [⟨"b".toList, 10, 25, 15⟩] ⟨0, 12, 106, 0, 20⟩ = false ∧
    (∀ w ∈ [(⟨"b".toList, 10, 25, 15⟩ : wanted_t)], ¬ (w.start ≤ 0 ∧ 0 < w.end_)) ∧
    (∀ decode stale : block_t → List Nat,
      main_write 224 [⟨"b".toList, 10, 25, 15⟩] two_blocks decode stale =
        decode ⟨0, 12, 106, 0, 20⟩ ++ decode ⟨1, 118, 106, 20, 20⟩) ∧
    ¬ (∀ (verify : Bool) (gFileIndexOffset : Nat) (gFileIndex : List file_index_t)
        (specs : List (List Char)) (gWantedFiles : List wanted_t) (gIndex : List block_t),
        writer_path verify gFileIndexOffset = true →
        wanted_files gFileIndexOffset gFileIndex specs = .ok gWantedFiles →
        ∀ b ∈ read_thread gFileIndexOffset gWantedFiles gIndex,
          gWantedFiles = [] ∨ fully_wanted gWantedFiles b = true) := by
  have hread : read_thread 224 [⟨"b".toList, 10, 25, 15⟩] two_blocks =
      [⟨0, 12, 106, 0, 20⟩, ⟨1, 118, 106, 20, 20⟩] := by decide
  refine ⟨by decide, by decide, hread, by decide, by decide, ?_, ?_⟩
  · intro decode stale
    simp only [main_write, hread, write_loop_eq]
    simp
  · intro hall
    have h := hall false 224 index_b_10_25 ["b".toList] [⟨"b".toList, 10, 25, 15⟩]
      two_blocks (by decide) (by decide) ⟨0, 12, 106, 0, 20⟩ (by rw [hread]; simp)
    revert h
    decide

/-- C16, amended: on the output writer's path (verification disabled or no
file index) the writer writes whole, in order, exactly the blocks that
`read_thread` reads.  Without a file index the wanted list is empty and every
block is read.  With an empty wanted list the blocks read are those other
than the file-index block.  With filtering active a block that is read is not
the file-index block and ends after the start of some wanted range. -/
theorem writer_writes_read_blocks (verify : Bool) (gFileIndexOffset : Nat)
    (gFileIndex : List file_index_t) (specs : List (List Char))
    (gWantedFiles : List wanted_t) (gIndex : List block_t)
    (decode stale : block_t → List Nat)
    (hpath : writer_path verify gFileIndexOffset = true)
    (hres : wanted_files gFileIndexOffset gFileIndex specs = .ok gWantedFiles) :
    (verify = false ∨ gFileIndexOffset = 0) ∧
    main_write gFileIndexOffset gWantedFiles gIndex decode stale =
      (read_thread gFileIndexOffset gWantedFiles gIndex).flatMap decode ∧
    (gFileIndexOffset = 0 →
      gWantedFiles = [] ∧ read_thread gFileIndexOffset gWantedFiles gIndex = gIndex) ∧
    (gWantedFiles = [] →
      read_thread gFileIndexOffset gWantedFiles gIndex =
        content_blocks gFileIndexOffset gIndex) ∧
    (gWantedFiles ≠ [] →
      ∀ b ∈ read_thread gFileIndexOffset gWantedFiles gIndex,
        is_file_index_block gFileIndexOffset b = false ∧
        ∃ w ∈ gWantedFiles,
          w.start < size_add b.uncompressed_file_offset b.uncompressed_size) := by
  have hempty : gWantedFiles = [] →
      read_thread gFileIndexOffset gWantedFiles gIndex =
        content_blocks gFileIndexOffset gIndex := by
    intro hw
    subst hw
    exact read_loop_unfiltered gFileIndexOffset gIndex []
  refine ⟨?_, ?_, ?_, hempty, ?_⟩
  · cases verify with
    | false => exact Or.inl rfl
    | true =>
      right
      simpa [writer_path] using hpath
  · simp only [main_write, write_loop_eq, List.nil_append]
  · intro h0
    subst h0
    have hw : gWantedFiles = [] := by
      simp only [wanted_files, if_true] at hres
      by_cases hc : specs.length ≠ 0
      · simp [hc] at hres
      · simp only [hc, if_false] at hres
        injection hres with hres
        exact hres.symm
    refine ⟨hw, ?_⟩
    rw [hempty hw]
    simp [content_blocks, is_file_index_block]
  · intro hW b hb
    have hmem := read_loop_mem gFileIndexOffset gWantedFiles gIndex gWantedFiles b hb
    refine ⟨?_, read_loop_passes_test gFileIndexOffset gWantedFiles gIndex gWantedFiles hW
      (fun w hw => hw) b hb⟩
    have := (List.mem_filter.mp hmem).2
    simpa using this

/-- C16, amended, an instance: verification disabled, the spec `b`, the range
`[10,25)` over the blocks `[0,20)` and `[20,40)`. -/
theorem writer_writes_read_blocks_witness :
    (false = false ∨ 224 = 0) ∧
    main_write 224 [⟨"b".toList, 10, 25, 15⟩] two_blocks small_decode (fun _ => []) =
      (read_thread 224 [⟨"b".toList, 10, 25, 15⟩] two_blocks).flatMap small_decode ∧
    (224 = 0 →
      [(⟨"b".toList, 10, 25, 15⟩ : wanted_t)] = [] ∧
      read_thread 224 [⟨"b".toList, 10, 25, 15⟩] two_blocks = two_blocks) ∧
    ([(⟨"b".toList, 10, 25, 15⟩ : wanted_t)] = [] →
      read_thread 224 [⟨"b".toList, 10, 25, 15⟩] two_blocks =
        content_blocks 224 two_blocks) ∧
    ([(⟨"b".toList, 10, 25, 15⟩ : wanted_t)] ≠ [] →
      ∀ b ∈ read_thread 224 [⟨"b".toList, 10, 25, 15⟩] two_blocks,
        is_file_index_block 224 b = false ∧
        ∃ w ∈ [(⟨"b".toList, 10, 25, 15⟩ : wanted_t)],
          w.start < size_add b.uncompressed_file_offset b.uncompressed_size) :=
  writer_writes_read_blocks false 224 index_b_10_25 ["b".toList] [⟨"b".toList, 10, 25, 15⟩]
    two_blocks small_decode (fun _ => []) (by decide) (by decide)

/-! ## Ranges inside blocks: the reader -/

theorem advance_wanted_split (uend : Nat) (c : List wanted_t) :
    ∃ d, c = d ++ advance_wanted uend c ∧ ∀ x ∈ d, x.end_ < uend := by
  induction c with
  | nil => exact ⟨[], by simp [advance_wanted]⟩
  | cons y rest ih =>
    by_cases hy : y.end_ < uend
    · obtain ⟨d, hd1, hd2⟩ := ih
      refine ⟨y :: d, ?_, ?_⟩
      · simp only [advance_wanted, hy, if_true, List.cons_append]
        rw [← hd1]
      · intro x hx
        rcases List.mem_cons.mp hx with h | h
        · rw [h]; exact hy
        · exact hd2 x h
    · exact ⟨[], by simp [advance_wanted, hy]⟩

theorem advance_wanted_all (uend : Nat) (c : List wanted_t)
    (hc : c.Pairwise (fun r r1 => r.end_ ≤ r1.start))
    (hne : ∀ w ∈ c, w.start < w.end_) :
    ∀ w ∈ advance_wanted uend c, uend ≤ w.end_ := by
  induction c with
  | nil => simp [advance_wanted]
  | cons y rest ih =>
    have hp := List.pairwise_cons.mp hc
    by_cases hy : y.end_ < uend
    · simp only [advance_wanted, hy, if_true]
      exact ih hp.2 (fun w hw => hne w (List.mem_cons_of_mem _ hw))
    · simp only [advance_wanted, hy, if_false]
      intro w hw
      rcases List.mem_cons.mp hw with h | h
      · rw [h]; omega
      · have h1 := hp.1 w h
        have h2 := hne w (List.mem_cons_of_mem _ h)
        omega

theorem range_inside_iff (w : wanted_t) (b : block_t) :
    range_inside w b = true ↔ b.uncompressed_file_offset ≤ w.start ∧
      w.end_ < b.uncompressed_file_offset + b.uncompressed_size := by
  simp [range_inside]

theorem holds_range_iff (c : List wanted_t) (b : block_t) :
    holds_range c b = true ↔ ∃ w ∈ c, range_inside w b = true := by
  simp [holds_range]

theorem read_loop_exact (gFileIndexOffset : Nat) (gWantedFiles : List wanted_t)
    (hW : gWantedFiles ≠ []) (blocks : List block_t) (c : List wanted_t)
    (hfit : ∀ b ∈ content_blocks gFileIndexOffset blocks,
      b.uncompressed_file_offset + b.uncompressed_size < SIZE_MOD)
    (hblocks : (content_blocks gFileIndexOffset blocks).Pairwise
      (fun b b1 => b.uncompressed_file_offset + b.uncompressed_size ≤
        b1.uncompressed_file_offset))
    (hc : c.Pairwise (fun r r1 => r.end_ ≤ r1.start))
    (hne : ∀ w ∈ c, w.start < w.end_)
    (hin : ∀ w ∈ c, ∃ b ∈ content_blocks gFileIndexOffset blocks, range_inside w b = true) :
    read_loop gFileIndexOffset gWantedFiles blocks c =
      (content_blocks gFileIndexOffset blocks).filter (holds_range c) := by
  induction blocks generalizing c with
  | nil => simp [read_loop, content_blocks]
  | cons h rest ih =>
    by_cases hh : is_file_index_block gFileIndexOffset h = true
    · rw [read_loop_index_block _ _ _ _ _ hh]
      rw [content_blocks_cons_index _ _ _ hh] at hfit hblocks hin ⊢
      exact ih c hfit hblocks hc hne hin
    · simp only [Bool.not_eq_true] at hh
      rw [content_blocks_cons_content _ _ _ hh] at hfit hblocks hin ⊢
      have hfit1 : ∀ b ∈ content_blocks gFileIndexOffset rest,
          b.uncompressed_file_offset + b.uncompressed_size < SIZE_MOD :=
        fun y hy => hfit y (List.mem_cons_of_mem _ hy)
      have hp := List.pairwise_cons.mp hblocks
      have huend := size_add_of_lt _ _ (hfit h (List.mem_cons_self _ _))
      cases c with
      | nil =>
        rw [read_loop_nil_cursor _ _ _ _ hh hW, ih [] hfit1 hp.2 hc hne (by simp)]
        simp [holds_range]
      | cons c0 cr =>
        have hstart : ∀ w ∈ c0 :: cr, c0.start ≤ w.start := by
          intro w hw
          rcases List.mem_cons.mp hw with h1 | h1
          · rw [h1]
          · have h2 := (List.pairwise_cons.mp hc).1 w h1
            have h3 := hne c0 (List.mem_cons_self _ _)
            omega
        by_cases hskip : c0.start ≥
            size_add h.uncompressed_file_offset h.uncompressed_size
        · rw [read_loop_skip _ _ _ _ _ _ hh hW hskip]
          rw [huend] at hskip
          have hnot : ∀ w ∈ c0 :: cr, ¬ range_inside w h = true := by
            intro w hw hi
            have h1 := hstart w hw
            have h2 := hne w hw
            have h3 := (range_inside_iff w h).mp hi
            omega
          have hfalse : holds_range (c0 :: cr) h = false := by
            rw [Bool.eq_false_iff]
            intro ht
            obtain ⟨w, hw, hi⟩ := (holds_range_iff _ _).mp ht
            exact hnot w hw hi
          rw [List.filter_cons, hfalse]
          simp only [Bool.false_eq_true, if_false]
          apply ih (c0 :: cr) hfit1 hp.2 hc hne
          intro w hw
          obtain ⟨b, hb, hi⟩ := hin w hw
          rcases List.mem_cons.mp hb with h1 | h1
          · rw [h1] at hi
            exact absurd hi (hnot w hw)
          · exact ⟨b, h1, hi⟩
        · rw [read_loop_read _ _ _ _ _ _ hh hW hskip]
          rw [huend] at hskip ⊢
          have htrue : holds_range (c0 :: cr) h = true := by
            rw [holds_range_iff]
            refine ⟨c0, List.mem_cons_self _ _, ?_⟩
            obtain ⟨b, hb, hi⟩ := hin c0 (List.mem_cons_self _ _)
            rcases List.mem_cons.mp hb with h1 | h1
            · rw [h1] at hi
              exact hi
            · exfalso
              have h2 := hp.1 b h1
              have h3 := (range_inside_iff c0 b).mp hi
              omega
          rw [List.filter_cons, htrue]
          simp only [if_true]
          congr 1
          have hsuf := advance_wanted_suffix
            (h.uncompressed_file_offset + h.uncompressed_size) (c0 :: cr)
          have hall := advance_wanted_all
            (h.uncompressed_file_offset + h.uncompressed_size) (c0 :: cr) hc hne
          rw [ih _ hfit1 hp.2 (List.Pairwise.sublist hsuf.sublist hc)
            (fun w hw => hne w (hsuf.subset hw)) ?_]
          · apply List.filter_congr
            intro b hb
            have hb1 := hp.1 b hb
            obtain ⟨d, hd1, hd2⟩ := advance_wanted_split
              (h.uncompressed_file_offset + h.uncompressed_size) (c0 :: cr)
            rw [Bool.eq_iff_iff, holds_range_iff, holds_range_iff]
            constructor
            · rintro ⟨w, hw, hi⟩
              exact ⟨w, hsuf.subset hw, hi⟩
            · rintro ⟨w, hw, hi⟩
              rw [hd1] at hw
              rcases List.mem_append.mp hw with h1 | h1
              · exfalso
                have h2 := hd2 w h1
                have h3 := (range_inside_iff w b).mp hi
                have h4 := hne w (by rw [hd1]; exact List.mem_append_left _ h1)
                omega
              · exact ⟨w, h1, hi⟩
          · intro w hw
            obtain ⟨b, hb, hi⟩ := hin w (hsuf.subset hw)
            rcases List.mem_cons.mp hb with h1 | h1
            · exfalso
              rw [h1] at hi
              have h2 := hall w hw
              have h3 := (range_inside_iff w h).mp hi
              omega
            · exact ⟨b, h1, hi⟩

/-! ## Ranges inside blocks: the layout of the ranges over the items -/

theorem ranges_laid_out_of_sorted (W : List wanted_t) (cur : Option pipeline_item_t)
    (M : List pipeline_item_t)
    (hM : M.Pairwise (fun a b => a.data.uoffset + a.data.outsize ≤ b.data.uoffset))
    (hcur : ∀ c, cur = some c → ∀ it ∈ M, c.data.uoffset + c.data.outsize ≤ it.data.uoffset)
    (hW : W.Pairwise (fun r r1 => r.end_ ≤ r1.start))
    (hne : ∀ w ∈ W, w.start < w.end_)
    (hin : ∀ w ∈ W, (∃ c, cur = some c ∧ item_holds c w) ∨ ∃ it ∈ M, item_holds it w)
    (hall : ∀ it ∈ M, ∃ w ∈ W, item_holds it w) :
    ranges_laid_out cur M W := by
  induction W generalizing cur M with
  | nil =>
    cases M with
    | nil => simp [ranges_laid_out]
    | cons h rest =>
      obtain ⟨w, hw, _⟩ := hall h (List.mem_cons_self _ _)
      simp at hw
  | cons w rest ih =>
    have hp := List.pairwise_cons.mp hW
    have hwne := hne w (List.mem_cons_self _ _)
    have hne1 : ∀ x ∈ rest, x.start < x.end_ := fun x hx => hne x (List.mem_cons_of_mem _ hx)
    rw [ranges_laid_out]
    rcases hin w (List.mem_cons_self _ _) with ⟨c, hc, hcw⟩ | ⟨it, hit, hitw⟩
    · left
      refine ⟨c, hc, hcw, ih cur M hM hcur hp.2 hne1
        (fun x hx => hin x (List.mem_cons_of_mem _ hx)) ?_⟩
      intro it hit
      obtain ⟨x, hx, hix⟩ := hall it hit
      rcases List.mem_cons.mp hx with h1 | h1
      · exfalso
        rw [h1] at hix
        have h2 := hcur c hc it hit
        simp only [item_holds] at hix hcw
        omega
      · exact ⟨x, h1, hix⟩
    · right
      cases M with
      | nil => simp at hit
      | cons h M1 =>
        have hpM := List.pairwise_cons.mp hM
        have hhw : item_holds h w := by
          rcases List.mem_cons.mp hit with h1 | h1
          · rw [← h1]; exact hitw
          · exfalso
            have h2 := hpM.1 it h1
            obtain ⟨x, hx, hhx⟩ := hall h (List.mem_cons_self _ _)
            simp only [item_holds] at hitw hhx
            rcases List.mem_cons.mp hx with h3 | h3
            · rw [h3] at hhx
              omega
            · have h4 := hp.1 x h3
              have h5 := hne1 x h3
              omega
        have hhw1 := hhw
        simp only [item_holds] at hhw1
        refine ⟨?_, h, M1, rfl, hhw, ih (some h) M1 hpM.2 ?_ hp.2 hne1 ?_ ?_⟩
        · intro c hc
          have := hcur c hc h (List.mem_cons_self _ _)
          omega
        · intro c hc it1 hit1
          injection hc with hc
          rw [← hc]
          exact hpM.1 it1 hit1
        · intro x hx
          have h4 := hp.1 x hx
          have h5 := hne1 x hx
          rcases hin x (List.mem_cons_of_mem _ hx) with ⟨c, hc, hcx⟩ | ⟨it1, hit1, hix⟩
          · exfalso
            have := hcur c hc h (List.mem_cons_self _ _)
            simp only [item_holds] at hcx
            omega
          · rcases List.mem_cons.mp hit1 with h6 | h6
            · left
              exact ⟨h, rfl, by rw [← h6]; exact hix⟩
            · right
              exact ⟨it1, h6, hix⟩
        · intro it1 hit1
          obtain ⟨x, hx, hix⟩ := hall it1 (List.mem_cons_of_mem _ hit1)
          rcases List.mem_cons.mp hx with h6 | h6
          · exfalso
            rw [h6] at hix
            have := hpM.1 it1 hit1
            simp only [item_holds] at hix
            omega
          · exact ⟨x, h6, hix⟩

/-! ## Ranges inside blocks: the adapter -/

theorem tar_flush_keeps (s : ar_state) :
    (tar_flush s).gArNextItem = s.gArNextItem ∧ (tar_flush s).gArWanted = s.gArWanted := by
  cases hi : s.gArItem with
  | none => simp [tar_flush, hi]
  | some item => simp [tar_flush, hi]

theorem tar_read_calls_eof (gWantedFiles : List wanted_t) (n : Nat) (s s1 : ar_state)
    (h : tar_read gWantedFiles s = .ok (⟨0, none⟩, s1)) :
    tar_read_calls gWantedFiles (n + 1) s = .ok ([], true, s1) := by
  rw [tar_read_calls]
  simp only [h]

theorem tar_read_calls_cons (gWantedFiles : List wanted_t) (n : Nat) (s s1 s2 : ar_state)
    (item : pipeline_item_t) (off len : Nat) (spans : List (pipeline_item_t × Nat × Nat))
    (eof : Bool)
    (h : tar_read gWantedFiles s = .ok (⟨len, some (item, off)⟩, s1)) (hlen : len ≠ 0)
    (hrest : tar_read_calls gWantedFiles n s1 = .ok (spans, eof, s2)) :
    tar_read_calls gWantedFiles (n + 1) s = .ok ((item, off, len) :: spans, eof, s2) := by
  rw [tar_read_calls]
  simp only [h, hlen, if_false, hrest]

theorem tar_next_block_stay (t : ar_state) (item : pipeline_item_t) (w : wanted_t)
    (rest : List wanted_t) (hi : t.gArItem = some item) (hn : t.gArNextItem = false)
    (hw : t.gArWanted = w :: rest)
    (hlt : w.start < size_add item.data.uoffset item.data.outsize) :
    tar_next_block t = (true, t) := by
  simp [tar_next_block, hi, hn, hw, hlt]

theorem tar_next_block_advance (t : ar_state)
    (h : ∀ item w rest, t.gArItem = some item → t.gArWanted = w :: rest →
      ¬ w.start < size_add item.data.uoffset item.data.outsize) :
    tar_next_block t = tar_advance t := by
  rcases tar_next_block_cases t with ⟨_, _, _, item, w, rest, hi, hw, hlt⟩ | h1
  · exact absurd hlt (h item w rest hi hw)
  · exact h1

theorem tar_read_end (gWantedFiles : List wanted_t) (s : ar_state)
    (hw : s.gArWanted = []) (hm : s.merged = []) :
    ∃ s1, tar_read gWantedFiles s = .ok (⟨0, none⟩, s1) := by
  have hk := tar_flush_keeps s
  have hf := tar_flush_frame s
  have hadv : tar_next_block (tar_flush s) = tar_advance (tar_flush s) := by
    apply tar_next_block_advance
    intro item w rest _ hw1
    rw [hk.2, hw] at hw1
    exact absurd hw1 (by simp)
  rw [tar_read_eq, hadv]
  have h1 : (tar_advance (tar_flush s)).1 = false := by
    simp [tar_advance, hf.2.2.2.2, hm]
  rw [h1]
  exact ⟨(tar_advance (tar_flush s)).2, by simp [tar_trim]⟩

theorem span_for_mono (items items1 : List pipeline_item_t) (h : ∀ x ∈ items, x ∈ items1)
    (w : wanted_t) (sp : pipeline_item_t × Nat × Nat) (hs : span_for items w sp) :
    span_for items1 w sp :=
  ⟨h _ hs.1, hs.2⟩

theorem tar_read_calls_laid_out (gWantedFiles : List wanted_t) (hG : gWantedFiles ≠ [])
    (W : List wanted_t) (cur : Option pipeline_item_t) (M : List pipeline_item_t)
    (s : ar_state) (n : Nat)
    (hcur : s.gArItem = cur) (hflag : s.gArNextItem = false) (hwanted : s.gArWanted = W)
    (hmerged : s.merged = M) (hlay : ranges_laid_out cur M W)
    (hrange : ∀ w ∈ W, w.start < w.end_ ∧ w.size = w.end_ - w.start)
    (hfit : ∀ it ∈ cur.toList ++ M, it.data.uoffset + it.data.outsize < SIZE_MOD)
    (hn : W.length < n) :
    ∃ spans s1, tar_read_calls gWantedFiles n s = .ok (spans, true, s1) ∧
      List.Forall₂ (span_for (cur.toList ++ M)) W spans := by
  induction W generalizing cur M s n with
  | nil =>
    cases n with
    | zero => simp at hn
    | succ n1 =>
      simp only [ranges_laid_out] at hlay
      rw [hlay] at hmerged
      obtain ⟨s1, hs1⟩ := tar_read_end gWantedFiles s hwanted hmerged
      exact ⟨[], s1, tar_read_calls_eof _ _ _ _ hs1, List.Forall₂.nil⟩
  | cons w rest ih =>
    cases n with
    | zero => simp at hn
    | succ n1 =>
      have hk := tar_flush_keeps s
      have hf := tar_flush_frame s
      have hw := hrange w (List.mem_cons_self _ _)
      have hrange1 : ∀ x ∈ rest, x.start < x.end_ ∧ x.size = x.end_ - x.start :=
        fun x hx => hrange x (List.mem_cons_of_mem _ hx)
      have hn1 : rest.length < n1 := by
        simp only [List.length_cons] at hn
        omega
      rw [ranges_laid_out] at hlay
      rcases hlay with ⟨item, hitem, hholds, hlay1⟩ | ⟨hbefore, item, more, hM, hholds, hlay1⟩
      · have hfit1 : item.data.uoffset + item.data.outsize < SIZE_MOD :=
          hfit item (by simp [hitem])
        have hh := hholds
        simp only [item_holds] at hh
        have hnext : tar_next_block (tar_flush s) = (true, tar_flush s) :=
          tar_next_block_stay _ item w rest (by rw [hf.2.1, hcur, hitem])
            (by rw [hk.1, hflag]) (by rw [hk.2, hwanted])
            (by rw [size_add_of_lt _ _ hfit1]; omega)
        have hread := (tar_read_trim_step gWantedFiles s (tar_flush s) item w rest hG hnext
          (by rw [hf.2.1, hcur, hitem]) (by rw [hk.2, hwanted]) hh.1 (by omega) (by omega)
          hw.2 hfit1 (by omega)).2.1 (by omega)
        obtain ⟨spans, s1, hcalls, hall⟩ := ih cur M
          { tar_flush s with gArWanted := rest,
                             gArLastOffset := w.start - item.data.uoffset,
                             gArLastSize := w.size } n1
          (by show (tar_flush s).gArItem = cur; rw [hf.2.1, hcur])
          (by show (tar_flush s).gArNextItem = false; rw [hk.1, hflag]) rfl
          (by show (tar_flush s).merged = M; rw [hf.2.2.2.2, hmerged]) hlay1 hrange1 hfit hn1
        refine ⟨_ :: spans, s1, tar_read_calls_cons _ _ _ _ _ _ _ _ _ _ hread (by omega) hcalls,
          List.Forall₂.cons ?_ hall⟩
        exact ⟨by simp [hitem], hholds, rfl, rfl⟩
      · have hfit1 : item.data.uoffset + item.data.outsize < SIZE_MOD :=
          hfit item (by simp [hM])
        have hh := hholds
        simp only [item_holds] at hh
        have hadv : tar_next_block (tar_flush s) = tar_advance (tar_flush s) := by
          apply tar_next_block_advance
          intro c w1 rest1 hc hw1
          rw [hf.2.1, hcur] at hc
          rw [hk.2, hwanted] at hw1
          injection hw1 with e1 e2
          rw [← e1]
          have hb := hbefore c hc
          have hfc : c.data.uoffset + c.data.outsize < SIZE_MOD := hfit c (by simp [hc])
          rw [size_add_of_lt _ _ hfc]
          omega
        have hnext : tar_next_block (tar_flush s) = (true, (tar_advance (tar_flush s)).2) := by
          rw [hadv]
          apply Prod.ext
          · simp [tar_advance, hf.2.2.2.2, hmerged, hM]
          · rfl
        have hread := (tar_read_trim_step gWantedFiles s _ item w rest hG hnext
          (by simp [tar_advance, hf.2.2.2.2, hmerged, hM])
          (by simp only [tar_advance]; rw [hk.2, hwanted]) hh.1 (by omega) (by omega)
          hw.2 hfit1 (by omega)).2.1 (by omega)
        obtain ⟨spans, s1, hcalls, hall⟩ := ih (some item) more
          { (tar_advance (tar_flush s)).2 with
              gArWanted := rest, gArLastOffset := w.start - item.data.uoffset,
              gArLastSize := w.size } n1
          (by show (tar_advance (tar_flush s)).2.gArItem = some item
              simp [tar_advance, hf.2.2.2.2, hmerged, hM])
          (by show (tar_advance (tar_flush s)).2.gArNextItem = false
              simp [tar_advance]) rfl
          (by show (tar_advance (tar_flush s)).2.merged = more
              simp [tar_advance, hf.2.2.2.2, hmerged, hM]) hlay1 hrange1
          (by
            intro x hx
            apply hfit x
            rw [hM]
            simp only [Option.toList_some, List.singleton_append] at hx
            exact List.mem_append_right _ hx) hn1
        refine ⟨_ :: spans, s1, tar_read_calls_cons _ _ _ _ _ _ _ _ _ _ hread (by omega) hcalls,
          List.Forall₂.cons ?_ ?_⟩
        · exact ⟨by simp [hM], hholds, rfl, rfl⟩
        · refine List.Forall₂.imp ?_ hall
          intro x sp hsp
          refine span_for_mono _ _ ?_ x sp hsp
          intro y hy
          rw [hM]
          simp only [Option.toList_some, List.singleton_append] at hy
          exact List.mem_append_right _ hy

/-! ## Ranges inside blocks: the whole run -/

theorem merged_items_mem (R : List block_t) (k : Nat) (it : pipeline_item_t)
    (h : it ∈ merged_items R k) : ∃ b ∈ R, it.data = decode_block b := by
  induction R generalizing k with
  | nil => simp [merged_items] at h
  | cons b rest ih =>
    simp only [merged_items] at h
    rcases List.mem_cons.mp h with h1 | h1
    · exact ⟨b, List.mem_cons_self _ _, by rw [h1]⟩
    · obtain ⟨b1, hb1, e⟩ := ih (k + 1) h1
      exact ⟨b1, List.mem_cons_of_mem _ hb1, e⟩

theorem merged_items_of_mem (R : List block_t) (k : Nat) (b : block_t) (h : b ∈ R) :
    ∃ it ∈ merged_items R k, it.data = decode_block b := by
  induction R generalizing k with
  | nil => simp at h
  | cons b0 rest ih =>
    rcases List.mem_cons.mp h with h1 | h1
    · exact ⟨⟨k, decode_block b0⟩, by simp [merged_items], by rw [h1]⟩
    · obtain ⟨it, hit, e⟩ := ih (k + 1) h1
      exact ⟨it, by simp only [merged_items]; exact List.mem_cons_of_mem _ hit, e⟩

theorem merged_items_pairwise (R : List block_t) (k : Nat)
    (h : R.Pairwise (fun b b1 => b.uncompressed_file_offset + b.uncompressed_size ≤
      b1.uncompressed_file_offset)) :
    (merged_items R k).Pairwise
      (fun a b => a.data.uoffset + a.data.outsize ≤ b.data.uoffset) := by
  induction R generalizing k with
  | nil => simp [merged_items]
  | cons b rest ih =>
    have hp := List.pairwise_cons.mp h
    simp only [merged_items]
    refine List.pairwise_cons.mpr ⟨?_, ih (k + 1) hp.2⟩
    intro it hit
    obtain ⟨b1, hb1, e⟩ := merged_items_mem rest (k + 1) it hit
    rw [e]
    exact hp.1 b1 hb1

theorem forall2_with_left {α β : Type} (R : α → β → Prop) (P : α → Prop)
    (l1 : List α) (l2 : List β) (h : List.Forall₂ R l1 l2) (hP : ∀ a ∈ l1, P a) :
    List.Forall₂ (fun a b => R a b ∧ P a) l1 l2 := by
  induction h with
  | nil => exact List.Forall₂.nil
  | cons hab _ ih =>
    exact List.Forall₂.cons ⟨hab, hP _ (List.mem_cons_self _ _)⟩
      (ih (fun a ha => hP a (List.mem_cons_of_mem _ ha)))

theorem forall2_right_mem {α β : Type} (R : α → β → Prop)
    (l1 : List α) (l2 : List β) (h : List.Forall₂ R l1 l2) :
    ∀ b ∈ l2, ∃ a ∈ l1, R a b := by
  induction h with
  | nil => simp
  | cons hab _ ih =>
    intro b hb
    rcases List.mem_cons.mp hb with h1 | h1
    · rw [h1]
      exact ⟨_, List.mem_cons_self _ _, hab⟩
    · obtain ⟨a, ha, hr⟩ := ih b h1
      exact ⟨a, List.mem_cons_of_mem _ ha, hr⟩

/-- C19, the claim refuted.  With an empty wanted list the conditions on the
ranges hold of every block list, yet `read_thread` reads the blocks `[0,20)`
and `[20,40)`, which contain no wanted range, and `tar_read` returns two spans
for no range.  And a range inside the file-index block satisfies the
conditions, yet that block is not read and no span is returned. -/
theorem interior_ranges_need_filtering :
    (read_thread 224 [] two_blocks = [⟨0, 12, 106, 0, 20⟩, ⟨1, 118, 106, 20, 20⟩] ∧
      holds_range [] ⟨0, 12, 106, 0, 20⟩ = false ∧
      (extract 224 [] two_blocks 8).map (fun r => (r.1, r.2.1)) =
        .ok ([(⟨0, ⟨106, 20, 0⟩⟩, 0, 20), (⟨1, ⟨106, 20, 20⟩⟩, 0, 20)], true)) ∧
    (range_inside ⟨"x".toList, 45, 50, 5⟩ ⟨2, 224, 60, 40, 33⟩ = true ∧
      ⟨2, 224, 60, 40, 33⟩ ∈ two_blocks ∧
      read_thread 224 [⟨"x".toList, 45, 50, 5⟩] two_blocks = [] ∧
      (extract 224 [⟨"x".toList, 45, 50, 5⟩] two_blocks 8).map (fun r => (r.1, r.2.1)) =
        .ok ([], true)) ∧
    ¬ (∀ (gFileIndexOffset : Nat) (gWantedFiles : List wanted_t) (gIndex : List block_t),
        gIndex.Chain' (fun b b1 => b.uncompressed_file_offset + b.uncompressed_size =
          b1.uncompressed_file_offset) →
        gWantedFiles.Pairwise (fun r r1 => r.end_ ≤ r1.start) →
        (∀ w ∈ gWantedFiles, w.start < w.end_ ∧ w.size = w.end_ - w.start) →
        (∀ w ∈ gWantedFiles, ∃ b ∈ gIndex, range_inside w b = true) →
        read_thread gFileIndexOffset gWantedFiles gIndex =
          gIndex.filter (holds_range gWantedFiles)) := by
  refine ⟨by decide, by decide, ?_⟩
  intro hall
  have h := hall 224 [] two_blocks (by simp [two_blocks]) (by simp) (by simp) (by simp)
  revert h
  decide

/-- C19, amended: filtering active (a non-empty wanted list); the blocks other
than the file-index block ascending without overlap, as a contiguous list is;
the ranges ascending, non-overlapping and non-empty with `size = end - start`;
each range inside one of these blocks with `uoffset ≤ start` and
`end < uoffset + size of the block`.  Then `read_thread` reads exactly the
blocks, other than the file-index block, that contain a wanted range; and the
calls of `tar_read`, more of them allowed than there are ranges, return in
order one span per range, taken from the item of a block that contains the
range at offset `start - uoffset` with length `size`, and then the end of the
stream; every span lies in its block's payload. -/
theorem extract_interior_ranges (gFileIndexOffset : Nat) (gWantedFiles : List wanted_t)
    (gIndex : List block_t) (hW : gWantedFiles ≠ [])
    (hfit : ∀ b ∈ content_blocks gFileIndexOffset gIndex,
      b.uncompressed_file_offset + b.uncompressed_size < SIZE_MOD)
    (hblocks : (content_blocks gFileIndexOffset gIndex).Pairwise
      (fun b b1 => b.uncompressed_file_offset + b.uncompressed_size ≤
        b1.uncompressed_file_offset))
    (hasc : gWantedFiles.Pairwise (fun r r1 => r.end_ ≤ r1.start))
    (hrange : ∀ w ∈ gWantedFiles, w.start < w.end_ ∧ w.size = w.end_ - w.start)
    (hin : ∀ w ∈ gWantedFiles,
      ∃ b ∈ content_blocks gFileIndexOffset gIndex, range_inside w b = true) :
    read_thread gFileIndexOffset gWantedFiles gIndex =
      (content_blocks gFileIndexOffset gIndex).filter (holds_range gWantedFiles) ∧
    ∀ n, gWantedFiles.length < n →
      ∃ spans s, extract gFileIndexOffset gWantedFiles gIndex n = .ok (spans, true, s) ∧
        List.Forall₂
          (span_for (merged_items (read_thread gFileIndexOffset gWantedFiles gIndex) 0))
          gWantedFiles spans ∧
        ∀ sp ∈ spans, span_in_payload sp = true := by
  have hread : read_thread gFileIndexOffset gWantedFiles gIndex =
      (content_blocks gFileIndexOffset gIndex).filter (holds_range gWantedFiles) :=
    read_loop_exact gFileIndexOffset gWantedFiles hW gIndex gWantedFiles hfit hblocks hasc
      (fun w hw => (hrange w hw).1) hin
  refine ⟨hread, ?_⟩
  intro n hn
  have hsub : ∀ b ∈ read_thread gFileIndexOffset gWantedFiles gIndex,
      b ∈ content_blocks gFileIndexOffset gIndex ∧ holds_range gWantedFiles b = true := by
    intro b hb
    rw [hread] at hb
    exact List.mem_filter.mp hb
  have hM := merged_items_pairwise (read_thread gFileIndexOffset gWantedFiles gIndex) 0
    (by rw [hread]; exact List.Pairwise.sublist (List.filter_sublist _) hblocks)
  have hlay : ranges_laid_out none
      (merged_items (read_thread gFileIndexOffset gWantedFiles gIndex) 0) gWantedFiles := by
    apply ranges_laid_out_of_sorted gWantedFiles none _ hM (by simp) hasc
      (fun w hw => (hrange w hw).1)
    · intro w hw
      right
      obtain ⟨b, hb, hi⟩ := hin w hw
      have hbR : b ∈ read_thread gFileIndexOffset gWantedFiles gIndex := by
        rw [hread]
        exact List.mem_filter.mpr ⟨hb, (holds_range_iff _ _).mpr ⟨w, hw, hi⟩⟩
      obtain ⟨it, hit, e⟩ := merged_items_of_mem _ 0 b hbR
      refine ⟨it, hit, ?_⟩
      have := (range_inside_iff w b).mp hi
      simp only [item_holds, e, decode_block]
      exact this
    · intro it hit
      obtain ⟨b, hb, e⟩ := merged_items_mem _ 0 it hit
      obtain ⟨w, hw, hi⟩ := (holds_range_iff _ _).mp (hsub b hb).2
      refine ⟨w, hw, ?_⟩
      have := (range_inside_iff w b).mp hi
      simp only [item_holds, e, decode_block]
      exact this
  have hfits : ∀ it ∈ (none : Option pipeline_item_t).toList ++
      merged_items (read_thread gFileIndexOffset gWantedFiles gIndex) 0,
      it.data.uoffset + it.data.outsize < SIZE_MOD := by
    intro it hit
    simp only [Option.toList_none, List.nil_append] at hit
    obtain ⟨b, hb, e⟩ := merged_items_mem _ 0 it hit
    rw [e]
    exact hfit b (hsub b hb).1
  obtain ⟨spans, s1, hcalls, hall⟩ := tar_read_calls_laid_out gWantedFiles hW gWantedFiles
    none _ (ar_init gWantedFiles
      (merged_items (read_thread gFileIndexOffset gWantedFiles gIndex) 0)) n
    rfl rfl rfl rfl hlay hrange hfits hn
  simp only [Option.toList_none, List.nil_append] at hall
  refine ⟨spans, s1, hcalls, hall, ?_⟩
  intro sp hsp
  obtain ⟨w, hw, hs, hr⟩ := forall2_right_mem _ _ _
    (forall2_with_left _ (fun w => w.start < w.end_ ∧ w.size = w.end_ - w.start) _ _ hall
      hrange) sp hsp
  obtain ⟨_, hh, ho, hl⟩ := hs
  simp only [item_holds] at hh
  simp only [span_in_payload, decide_eq_true_eq]
  omega

/-- C19, amended, an instance: the ranges `[2,8)` and `[10,15)` inside the
block `[0,20)` and the range `[25,30)` inside the block `[20,40)`; four calls
return the three spans and then the end of the stream. -/
theorem extract_interior_ranges_witness :
    (extract 224 three_ranges two_blocks 4).map (fun r => (r.1, r.2.1)) =
      .ok ([(⟨0, ⟨106, 20, 0⟩⟩, 2, 6), (⟨0, ⟨106, 20, 0⟩⟩, 10, 5),
            (⟨1, ⟨106, 20, 20⟩⟩, 5, 5)], true) ∧
    (read_thread 224 three_ranges two_blocks =
      (content_blocks 224 two_blocks).filter (holds_range three_ranges) ∧
    ∀ n, three_ranges.length < n →
      ∃ spans s, extract 224 three_ranges two_blocks n = .ok (spans, true, s) ∧
        List.Forall₂ (span_for (merged_items (read_thread 224 three_ranges two_blocks) 0))
          three_ranges spans ∧
        ∀ sp ∈ spans, span_in_payload sp = true) :=
  ⟨by decide,
   extract_interior_ranges 224 three_ranges two_blocks (by decide) (by decide)
     (by simp [content_blocks, two_blocks, is_file_index_block])
     (by simp [three_ranges]) (by decide) (by decide)⟩

end Pread
